import Mathlib

/-!
Verification of the directory classification and move engine of
Smart-Folder-Organizer (src/main.py): `load_config`, `organize_folder` and
`process_file`.  The filesystem is shallowly embedded as a finite tree of
named regular files and subdirectories; `shutil.move` failures from the
environment (permissions, vanished files, ...) are injected through an
oracle, while `os.makedirs` failures are determined by the tree itself
(a regular file bearing the destination name).  Python exceptions are
`Except.error`; `organize_folder`'s `return None` is a `none` result.
-/

namespace SmartOrganizer

/-- A directory: regular files (by name, in listing order) and named
subdirectories.  This is the part of the filesystem state the engine reads
and mutates. -/
inductive Dir where
  | mk (files : List String) (subdirs : List (String × Dir))

/-- The regular files directly inside `d`. -/
def Dir.files : Dir → List String
  | .mk fs _ => fs

/-- The named subdirectories directly inside `d`. -/
def Dir.subdirs : Dir → List (String × Dir)
  | .mk _ ds => ds

/-- Membership of a name in a listing (Python's `in` on a list of strings). -/
def memb : List String → String → Bool
  | [], _ => false
  | x :: xs, y => if x = y then true else memb xs y

/-- Find the subdirectory with the given name, if any. -/
def lookupSub : List (String × Dir) → String → Option Dir
  | [], _ => none
  | (n, c) :: rest, name => if n = name then some c else lookupSub rest name

/-- Replace the subdirectory with the given name (first occurrence). -/
def updateSub : List (String × Dir) → String → Dir → List (String × Dir)
  | [], _, _ => []
  | (n, c) :: rest, name, c2 =>
    if n = name then (n, c2) :: rest else (n, c) :: updateSub rest name c2

/-- `os.path.exists(dest/filename)` inside a directory: any entry, regular
file or subdirectory, with that name. -/
def Dir.hasEntry (d : Dir) (name : String) : Bool :=
  memb d.files name || memb (d.subdirs.map Prod.fst) name

/-- Remove the first occurrence of a name from a listing. -/
def eraseFile : List String → String → List String
  | [], _ => []
  | x :: xs, y => if x = y then xs else x :: eraseFile xs y

/-- `os.makedirs(current/name, exist_ok=True)` (lines 172 and 197): a no-op
when a subdirectory `name` already exists; raises `FileExistsError` when a
regular file `name` exists (`exist_ok` only tolerates existing directories);
otherwise creates an empty subdirectory. -/
def makedirs (d : Dir) (name : String) : Except String Dir :=
  match lookupSub d.subdirs name with
  | some _ => .ok d
  | none =>
    if memb d.files name then .error ("FileExistsError: " ++ name)
    else .ok (Dir.mk d.files (d.subdirs ++ [(name, Dir.mk [] [])]))

/-- `shutil.move(current/filename, current/cat)` on success: the file leaves
the current listing and is appended to the (existing) destination
subdirectory's listing. -/
def moveFile (d : Dir) (cat filename : String) : Dir :=
  match lookupSub d.subdirs cat with
  | some c =>
    Dir.mk (eraseFile d.files filename)
      (updateSub d.subdirs cat (Dir.mk (c.files ++ [filename]) c.subdirs))
  | none => d

/-- Index of the last '.' in a character list, if any. -/
def lastDotIdx : List Char → Option Nat
  | [] => none
  | c :: cs =>
    match lastDotIdx cs with
    | some i => some (i + 1)
    | none => if c = '.' then some 0 else none

/-- Python's `str.lower()` on the Basic Latin range (the same range Lean's
`Char.toLower` handles), characterwise. -/
def lowerStr (s : String) : String := String.mk (s.toList.map Char.toLower)

/-- The extension part of `os.path.splitext(filename)` for a bare filename
(no path separators), from CPython's `genericpath._splitext`: the suffix
starting at the last '.', provided some character strictly before that dot
is not itself a '.' (leading dots of the name are part of the root, so
".bashrc" has no extension); otherwise empty. -/
def splitextExt (filename : String) : String :=
  match lastDotIdx filename.toList with
  | none => ""
  | some i =>
    if (filename.toList.take i).any (fun c => c != '.') then
      String.mk (filename.toList.drop i)
    else ""

/-- A CategoryMap: the insertion-ordered dict from category name to its list
of extension strings (`file_type_mappings` after `load_config`). -/
abbrev CategoryMap := List (String × List String)

/-- `load_config`, lines 108-110: `config.get("file_type_mappings", {})`
followed by lowercasing every configured extension.  The document is
modelled after JSON decoding: `none` when the top-level key is absent,
otherwise the ordered (category, extensions) pairs.  File IO and JSON
parse failures happen before this point and make `load_config` return
`None`; they are out of this function's scope. -/
def load_mappings (doc : Option (List (String × List String))) : CategoryMap :=
  match doc with
  | none => []
  | some ms => ms.map (fun p => (p.1, p.2.map lowerStr))

/-- The loop of lines 168-169: the first category whose extension list
contains the file's extension. -/
def findMatch : CategoryMap → String → Option String
  | [], _ => none
  | (cat, exts) :: rest, ext => if memb exts ext then some cat else findMatch rest ext

/-- Per-run counters, `summary_report` as a lookup table (every category of
the map and "Others" are pre-seeded at 0; no other key is ever read). -/
abbrev Summary := String → Nat

/-- `summary_report[category] += 1`. -/
def bump (s : Summary) (cat : String) : Summary :=
  fun c => if c = cat then s c + 1 else s c

/-- Environment-caused failures of `shutil.move`: for a destination category
name and a filename, `some detail` means the move raises with that detail,
`none` means it succeeds.  (`os.path.exists` never raises.) -/
abbrev MoveOracle := String → String → Option String

/-- The collision test of lines 176 and 199:
`os.path.exists(os.path.join(dest_folder, filename))`. -/
def destExists (d : Dir) (cat f : String) : Bool :=
  (lookupSub d.subdirs cat).elim false (fun c => c.hasEntry f)

/-- Line 178: `f"Moved: {filename} -> {category}/"` plus the newline the
caller of `update_log_widget` appends. -/
def movedMsg (category filename : String) : String :=
  "Moved: " ++ filename ++ " -> " ++ category ++ "/\n"

/-- Line 183: `f"Skipped (exists): {filename} in {category}/"`. -/
def skippedMsg (category filename : String) : String :=
  "Skipped (exists): " ++ filename ++ " in " ++ category ++ "/\n"

/-- Line 189: `f"Error moving {filename}: {e}"`. -/
def errorMovedMsg (filename detail : String) : String :=
  "Error moving " ++ filename ++ ": " ++ detail ++ "\n"

/-- Line 210: `f"Error moving {filename} to 'Others': {e}"`. -/
def errorOthersMsg (filename detail : String) : String :=
  "Error moving " ++ filename ++ " to 'Others': " ++ detail ++ "\n"

/-- Line 133: `f"Error: The path '{folder_path}' is invalid or not a directory."`. -/
def invalidPathMsg (folder_path : String) : String :=
  "Error: The path '" ++ folder_path ++ "' is invalid or not a directory.\n"

/-- The outcome of `process_file` for one file. -/
inductive Outcome where
  | moved (category filename : String)
  | skipped (category filename : String)
  | errored (category filename detail : String)
deriving DecidableEq

/-- `process_file` (lines 162-212): compute the lowercased splitext
extension; on the first matching category create the destination directory,
then — inside the `try` — skip when the destination already holds an entry
of that name, otherwise attempt the move, catching only the move's own
exception (all three paths `break`); with no matching category fall back to
"Others" with the same structure.  Returns the new directory state, the
updated summary, the outcome, and the line handed to `update_log_widget`
(the code appends the newline itself).  An uncaught `makedirs` exception is
`Except.error`; a failed move leaves the tree unchanged. -/
def process_file (current : Dir) (filename : String) (file_mappings : CategoryMap)
    (summary : Summary) (oracle : MoveOracle) :
    Except String (Dir × Summary × Outcome × String) :=
  let file_extension := lowerStr (splitextExt filename)
  match findMatch file_mappings file_extension with
  | some category => do
    let current ← makedirs current category
    if destExists current category filename then
      .ok (current, summary, .skipped category filename, skippedMsg category filename)
    else
      match oracle category filename with
      | some e =>
        .ok (current, summary, .errored category filename e, errorMovedMsg filename e)
      | none =>
        .ok (moveFile current category filename, bump summary category,
          .moved category filename, movedMsg category filename)
  | none => do
    let current ← makedirs current "Others"
    if destExists current "Others" filename then
      .ok (current, summary, .skipped "Others" filename, skippedMsg "Others" filename)
    else
      match oracle "Others" filename with
      | some e =>
        .ok (current, summary, .errored "Others" filename e, errorOthersMsg filename e)
      | none =>
        .ok (moveFile current "Others" filename, bump summary "Others",
          .moved "Others" filename, movedMsg "Others" filename)

/-- The category `process_file` files `filename` under (read off lines
165-196): first configured category containing its lowercased splitext
extension, else "Others". -/
def classifyFile (m : CategoryMap) (filename : String) : String :=
  match findMatch m (lowerStr (splitextExt filename)) with
  | some c => c
  | none => "Others"

/-- The non-recursive loop (lines 153-158): iterate over the `os.listdir`
snapshot; each name that (still) denotes a regular file is processed and
counted.  Directory entries of the listing fail the `isfile` test
throughout the run, so the snapshot passed in is the root's file listing.
Returns final directory, summary, files-processed count, emitted lines and
outcomes. -/
def processListed (m : CategoryMap) (oracle : MoveOracle) :
    List String → Dir → Summary → Nat →
    Except String (Dir × Summary × Nat × List String × List Outcome)
  | [], d, s, total => .ok (d, s, total, [], [])
  | f :: rest, d, s, total =>
    if memb d.files f then do
      let (d1, s1, _out, msg) ← process_file d f m s oracle
      let (d2, s2, t2, msgs, outs) ← processListed m oracle rest d1 s1 (total + 1)
      .ok (d2, s2, t2, msg :: msgs, _out :: outs)
    else processListed m oracle rest d s total

/-- The inner loop of the recursive branch (lines 149-151): every name of
the directory's file listing is processed and counted, in order, threading
the directory state.  Also records, for the traversal claims, the
(directory path, filename) of each processed file. -/
def walkFiles (m : CategoryMap) (oracle : MoveOracle) (path : List String) :
    List String → Dir → Summary → Nat →
    Except String (Dir × Summary × Nat × List String × List Outcome ×
      List (List String × String))
  | [], d, s, total => .ok (d, s, total, [], [], [])
  | f :: rest, d, s, total => do
    let (d1, s1, out, msg) ← process_file d f m s oracle
    let (d2, s2, t2, msgs, outs, procs) ← walkFiles m oracle path rest d1 s1 (total + 1)
    .ok (d2, s2, t2, msg :: msgs, out :: outs, (path, f) :: procs)

/-- The pruning filter of line 147: descend into a subdirectory only when
its name is no configured category name and not "Others". -/
def okDirName (m : CategoryMap) (n : String) : Bool :=
  !(memb (m.map Prod.fst) n) && n != "Others"

/-- Substitute walked subtrees (an association list over the descended
names) into the post-processing subdirectory listing. -/
def mergeWalked (walked : List (String × Dir)) : List (String × Dir) → List (String × Dir)
  | [] => []
  | (n, c) :: rest =>
    (match lookupSub walked n with
     | some c2 => (n, c2)
     | none => (n, c)) :: mergeWalked walked rest

mutual
/-- `os.walk(folder_path)` top-down with the body of lines 145-151: list the
directory, prune the category-named subdirectories, process the file
listing, then descend into each kept subdirectory in order.  Processing a
directory's files only ever touches its category-named children — which are
exactly the pruned ones (`walkFiles_lookup_ok_eq` below) — so the subtree
`os.walk` descends into is the original child: the recursion walks the
original children and `mergeWalked` puts the results back into the
post-processing listing. -/
def walkDir (m : CategoryMap) (oracle : MoveOracle) (path : List String) :
    Dir → Summary → Nat →
    Except String (Dir × Summary × Nat × List String × List Outcome ×
      List (List String × String))
  | Dir.mk fs subs, s, total => do
    let (d1, s1, t1, msgs1, outs1, procs1) ←
      walkFiles m oracle path fs (Dir.mk fs subs) s total
    let (walked, s2, t2, msgs2, outs2, procs2) ←
      walkSubdirs m oracle path subs s1 t1
    .ok (Dir.mk d1.files (mergeWalked walked d1.subdirs), s2, t2,
      msgs1 ++ msgs2, outs1 ++ outs2, procs1 ++ procs2)

/-- Descend, in listing order, into every subdirectory that survives the
pruning of line 147; return the walked subtrees keyed by name. -/
def walkSubdirs (m : CategoryMap) (oracle : MoveOracle) (path : List String) :
    List (String × Dir) → Summary → Nat →
    Except String (List (String × Dir) × Summary × Nat × List String × List Outcome ×
      List (List String × String))
  | [], s, total => .ok ([], s, total, [], [], [])
  | (n, c) :: rest, s, total =>
    if okDirName m n then do
      let (c1, s1, t1, msgs1, outs1, procs1) ← walkDir m oracle (path ++ [n]) c s total
      let (rest1, s2, t2, msgs2, outs2, procs2) ← walkSubdirs m oracle path rest s1 t1
      .ok ((n, c1) :: rest1, s2, t2, msgs1 ++ msgs2, outs1 ++ outs2, procs1 ++ procs2)
    else do
      let (rest1, s2, t2, msgs2, outs2, procs2) ← walkSubdirs m oracle path rest s total
      .ok (rest1, s2, t2, msgs2, outs2, procs2)
end

/-- A directory in which a re-run moves nothing: every file in its listing
already collides with an entry of its classified destination, and every
subdirectory that the walk would descend into (non-category-named) is in
the same state. -/
inductive Ready (m : CategoryMap) : Dir → Prop where
  | intro : ∀ (fs : List String) (subs : List (String × Dir)),
      (∀ f ∈ fs, destExists (Dir.mk fs subs) (classifyFile m f) f = true) →
      (∀ p ∈ subs, okDirName m p.1 = true → Ready m p.2) →
      Ready m (Dir.mk fs subs)

/-- What one run of `organize_folder` produced: the returned value
(`none` models Python's `return None`, otherwise the summary table and
`total_files_processed`), the root directory tree after the run, the lines
handed to `update_log_widget`, the per-file outcomes, and — in recursive
mode — the (path, filename) pairs processed. -/
structure RunOutput where
  result : Option (Summary × Nat)
  fsRoot : Option Dir
  events : List String
  outcomes : List Outcome
  processed : List (List String × String)

/-- `organize_folder` (lines 123-160).  `root` is what the path denotes on
the filesystem: `none` when it does not exist or is not a directory
(`os.path.isdir` fails, also for the empty path).  The summary starts with
every category and "Others" at 0 — as a lookup table, constantly 0.  An
escaping exception (from `makedirs`) is `Except.error`. -/
def organize_folder (folder_path : String) (root : Option Dir)
    (file_mappings : CategoryMap) (recursive : Bool) (oracle : MoveOracle) :
    Except String RunOutput :=
  match root with
  | none =>
    .ok ⟨none, none, [invalidPathMsg folder_path], [], []⟩
  | some d =>
    if folder_path = "" then
      .ok ⟨none, some d, [invalidPathMsg folder_path], [], []⟩
    else
      let s0 : Summary := fun _ => 0
      if recursive then do
        let (d1, s1, t1, msgs, outs, procs) ← walkDir file_mappings oracle [] d s0 0
        .ok ⟨some (s1, t1), some d1, msgs, outs, procs⟩
      else do
        let (d1, s1, t1, msgs, outs) ← processListed file_mappings oracle d.files d s0 0
        .ok ⟨some (s1, t1), some d1, msgs, outs, d.files.map (fun f => ([], f))⟩

/-- The C1 claim's extension rule, verbatim: the lowercased substring from
the last '.' in the filename to the end, empty when the filename contains
no '.'. -/
def claimExt (filename : String) : String :=
  match lastDotIdx filename.toList with
  | none => ""
  | some i => lowerStr (String.mk (filename.toList.drop i))

/-- The C1 claim's three-step classification rule over `claimExt`: first
category (in defined order) whose extension set contains the extension,
else "Others". -/
def claimClassify (m : CategoryMap) (filename : String) : String :=
  match m.find? (fun p => memb p.2 (claimExt filename)) with
  | some p => p.1
  | none => "Others"

/-- The C1 rule amended only in its extension step: the lowercased
substring from the last '.' counts as the extension only when some
character strictly before that dot is not itself a '.' (CPython splitext:
leading dots of the name belong to the root, so a hidden file like
".bashrc" has empty extension); steps 2-3 unchanged. -/
def amendedClassify (m : CategoryMap) (filename : String) : String :=
  let ext :=
    match lastDotIdx filename.toList with
    | none => ""
    | some i =>
      if (filename.toList.take i).any (fun c => c != '.') then
        lowerStr (String.mk (filename.toList.drop i))
      else ""
  match m.find? (fun p => memb p.2 ext) with
  | some p => p.1
  | none => "Others"

/-- The error string is an uncaught `FileExistsError` from `os.makedirs` on
a destination directory: a configured category name or "Others". -/
def IsMkdirErr (m : CategoryMap) (e : String) : Prop :=
  ∃ name, (name ∈ m.map Prod.fst ∨ name = "Others") ∧ e = "FileExistsError: " ++ name

/-- The oracle of a run during which the environment makes no `shutil.move`
call fail. -/
def noFailOracle : MoveOracle := fun _ _ => none

/-- Is the outcome a successful move? -/
def isMoved : Outcome → Bool
  | .moved _ _ => true
  | _ => false

/-- Is the outcome a collision skip? -/
def isSkipped : Outcome → Bool
  | .skipped _ _ => true
  | _ => false

/-- Is the outcome a caught move error? -/
def isErrored : Outcome → Bool
  | .errored _ _ _ => true
  | _ => false

/-- Is the outcome a successful move into the given category? -/
def isMovedTo (cat : String) : Outcome → Bool
  | .moved c _ => c == cat
  | _ => false

/-! ## Basic lemmas -/

theorem memb_iff (xs : List String) (y : String) : memb xs y = true ↔ y ∈ xs := by
  induction xs with
  | nil => simp [memb]
  | cons x xs ih =>
    unfold memb
    by_cases h : x = y
    · simp [h]
    · simp only [if_neg h, ih, List.mem_cons]
      exact ⟨Or.inr, fun hy => hy.resolve_left (fun he => h he.symm)⟩

theorem findMatch_mem {m : CategoryMap} {e c : String} (h : findMatch m e = some c) :
    c ∈ m.map Prod.fst := by
  induction m with
  | nil => simp [findMatch] at h
  | cons p rest ih =>
    obtain ⟨cat, exts⟩ := p
    rw [findMatch] at h
    split at h
    · injection h with h; simp [h]
    · simpa using Or.inr (ih h)

theorem classifyFile_not_ok (m : CategoryMap) (f : String) :
    okDirName m (classifyFile m f) = false := by
  unfold classifyFile
  cases h : findMatch m (lowerStr (splitextExt f)) with
  | some c =>
    have hc : memb (m.map Prod.fst) c = true := (memb_iff _ _).2 (findMatch_mem h)
    simp [okDirName, hc]
  | none => simp [okDirName]

theorem makedirs_of_lookup_some {d : Dir} {n : String} {c : Dir}
    (h : lookupSub d.subdirs n = some c) : makedirs d n = .ok d := by
  unfold makedirs; rw [h]

theorem makedirs_files {d d1 : Dir} {n : String} (h : makedirs d n = .ok d1) :
    d1.files = d.files := by
  unfold makedirs at h
  split at h
  · injection h with h; rw [← h]
  · split at h
    · cases h
    · injection h with h; rw [← h]; rfl

theorem destExists_lookup {d : Dir} {cat f : String} (h : destExists d cat f = true) :
    ∃ c, lookupSub d.subdirs cat = some c ∧ c.hasEntry f = true := by
  unfold destExists at h
  cases hl : lookupSub d.subdirs cat with
  | none => rw [hl] at h; simp at h
  | some c => rw [hl] at h; exact ⟨c, rfl, h⟩

/-! ## C9: a configuration document without "file_type_mappings" -/

/-- C9: a well-formed configuration document that lacks the top-level key
"file_type_mappings" resolves to the empty CategoryMap (not an error), and
under the empty mapping every file classifies as "Others". -/
theorem missing_key_empty_map_all_others :
    load_mappings none = [] ∧
    ∀ filename, classifyFile (load_mappings none) filename = "Others" :=
  ⟨rfl, fun _ => rfl⟩

/-! ## C6: invalid root -/

/-- C6: when the supplied root path does not exist or is not a directory
(`root = none`), or is the empty path, `organize_folder` returns no Summary,
emits exactly one progress event of the literal form
"Error: The path '&lt;path&gt;' is invalid or not a directory." (with the newline
the sink call appends), and performs no filesystem mutation: the tree is
returned exactly as supplied and no file outcome is produced. -/
theorem invalid_root_run (folder_path : String) (root : Option Dir)
    (m : CategoryMap) (recursive : Bool) (oracle : MoveOracle)
    (h : root = none ∨ folder_path = "") :
    organize_folder folder_path root m recursive oracle =
      .ok ⟨none, root, [invalidPathMsg folder_path], [], []⟩ := by
  rcases h with h | h
  · subst h; rfl
  · subst h
    cases root with
    | none => rfl
    | some d => simp [organize_folder]

theorem invalid_root_run_witness :
    ((none : Option Dir) = none ∨ "/nonexistent" = "") ∧
    organize_folder "/nonexistent" none [("Images", [".jpg"])] false (fun _ _ => none) =
      .ok ⟨none, none, [invalidPathMsg "/nonexistent"], [], []⟩ :=
  ⟨Or.inl rfl,
    invalid_root_run "/nonexistent" none [("Images", [".jpg"])] false (fun _ _ => none)
      (Or.inl rfl)⟩

/-! ## C4: collision at the destination -/

/-- C4: when the classified destination directory already contains an entry
with the file's name, the per-file operation is a no-op: the tree is
returned unchanged (the source stays in place; nothing is renamed,
overwritten or compared), the outcome is Skipped with its progress line,
and the summary is unchanged. -/
theorem process_file_skip (d : Dir) (filename : String) (m : CategoryMap)
    (s : Summary) (oracle : MoveOracle)
    (h : destExists d (classifyFile m filename) filename = true) :
    process_file d filename m s oracle =
      .ok (d, s, .skipped (classifyFile m filename) filename,
        skippedMsg (classifyFile m filename) filename) := by
  obtain ⟨c, hl, _⟩ := destExists_lookup h
  cases hf : findMatch m (lowerStr (splitextExt filename)) with
  | some cat =>
    have hc : classifyFile m filename = cat := by unfold classifyFile; rw [hf]
    rw [hc] at h hl ⊢
    simp only [process_file, hf]
    rw [makedirs_of_lookup_some hl]
    simp [Bind.bind, Except.bind, h]
  | none =>
    have hc : classifyFile m filename = "Others" := by unfold classifyFile; rw [hf]
    rw [hc] at h hl ⊢
    simp only [process_file, hf]
    rw [makedirs_of_lookup_some hl]
    simp [Bind.bind, Except.bind, h]

theorem collision_is_noop (d : Dir) (filename : String) (m : CategoryMap)
    (s : Summary) (oracle : MoveOracle)
    (h : destExists d (classifyFile m filename) filename = true) :
    process_file d filename m s oracle =
      .ok (d, s, .skipped (classifyFile m filename) filename,
        skippedMsg (classifyFile m filename) filename) :=
  process_file_skip d filename m s oracle h

theorem collision_is_noop_witness :
    destExists (Dir.mk ["b.txt"] [("Documents", Dir.mk ["b.txt"] [])])
      (classifyFile [("Images", [".jpg"]), ("Documents", [".txt"])] "b.txt") "b.txt" = true ∧
    process_file (Dir.mk ["b.txt"] [("Documents", Dir.mk ["b.txt"] [])]) "b.txt"
      [("Images", [".jpg"]), ("Documents", [".txt"])] (fun _ => 0) (fun _ _ => none) =
      .ok (Dir.mk ["b.txt"] [("Documents", Dir.mk ["b.txt"] [])], (fun _ => 0),
        .skipped (classifyFile [("Images", [".jpg"]), ("Documents", [".txt"])] "b.txt") "b.txt",
        skippedMsg (classifyFile [("Images", [".jpg"]), ("Documents", [".txt"])] "b.txt") "b.txt") :=
  ⟨by decide,
    collision_is_noop (Dir.mk ["b.txt"] [("Documents", Dir.mk ["b.txt"] [])]) "b.txt"
      [("Images", [".jpg"]), ("Documents", [".txt"])] (fun _ => 0) (fun _ _ => none)
      (by decide)⟩

/-! ## C3: a failing move is final -/

/-- C3: when the move raises after the file matched a category, the outcome
is Error: the error event with the detail is emitted, no summary counter is
touched, the file is not moved (the tree is the post-makedirs tree, whose
file listing equals the original), and there is no second attempt under
"Others" — the single Error outcome for the matched category is the whole
effect of the file's processing. -/
theorem move_error_is_final (d d1 : Dir) (filename cat detail : String)
    (m : CategoryMap) (s : Summary) (oracle : MoveOracle)
    (hmatch : findMatch m (lowerStr (splitextExt filename)) = some cat)
    (hmk : makedirs d cat = .ok d1)
    (hnocol : destExists d1 cat filename = false)
    (herr : oracle cat filename = some detail) :
    process_file d filename m s oracle =
      .ok (d1, s, .errored cat filename detail, errorMovedMsg filename detail) ∧
    d1.files = d.files := by
  refine ⟨?_, makedirs_files hmk⟩
  simp only [process_file, hmatch]
  rw [hmk]
  simp [Bind.bind, Except.bind, hnocol, herr]

theorem move_error_is_final_witness :
    findMatch [("Documents", [".txt"])] (lowerStr (splitextExt "b.txt")) = some "Documents" ∧
    makedirs (Dir.mk ["b.txt"] []) "Documents" =
      .ok (Dir.mk ["b.txt"] [("Documents", Dir.mk [] [])]) ∧
    destExists (Dir.mk ["b.txt"] [("Documents", Dir.mk [] [])]) "Documents" "b.txt" = false ∧
    process_file (Dir.mk ["b.txt"] []) "b.txt" [("Documents", [".txt"])] (fun _ => 0)
      (fun _ _ => some "boom") =
      .ok (Dir.mk ["b.txt"] [("Documents", Dir.mk [] [])], (fun _ => 0),
        .errored "Documents" "b.txt" "boom", errorMovedMsg "b.txt" "boom") :=
  ⟨by decide, rfl, by decide,
    (move_error_is_final (Dir.mk ["b.txt"] []) (Dir.mk ["b.txt"] [("Documents", Dir.mk [] [])])
      "b.txt" "Documents" "boom" [("Documents", [".txt"])] (fun _ => 0)
      (fun _ _ => some "boom") (by decide) rfl (by decide) rfl).1⟩

/-! ## C1: the classification rule -/

theorem findMatch_eq_find? (m : CategoryMap) (e : String) :
    findMatch m e = (m.find? (fun p => memb p.2 e)).map Prod.fst := by
  induction m with
  | nil => rfl
  | cons p rest ih =>
    obtain ⟨cat, exts⟩ := p
    rw [findMatch, List.find?]
    by_cases h : memb exts e = true
    · simp [h]
    · simp only [Bool.not_eq_true] at h
      simp [h, ih]

/-- C1, counterexample: the hidden filename ".txt" has, by the claim's rule,
extension ".txt" and would classify as "Documents"; `process_file`'s rule
(CPython splitext) gives it the empty extension, so the code classifies it
as "Others". -/
theorem claim_classification_counterexample :
    claimClassify [("Documents", [".txt"])] ".txt" = "Documents" ∧
    classifyFile [("Documents", [".txt"])] ".txt" = "Others" ∧
    classifyFile [("Documents", [".txt"])] ".txt" ≠
      claimClassify [("Documents", [".txt"])] ".txt" := by
  refine ⟨rfl, rfl, ?_⟩
  decide

/-- C1 as amended: for every filename and CategoryMap, the code's
classification follows the claim's three-step rule with the extension step
corrected to splitext semantics (the substring from the last '.' only when
a non-'.' character precedes that dot; hidden files get the empty
extension). -/
theorem classification_follows_amended_rule (m : CategoryMap) (filename : String) :
    classifyFile m filename = amendedClassify m filename := by
  have he : lowerStr "" = "" := rfl
  unfold classifyFile amendedClassify splitextExt
  cases h : lastDotIdx filename.toList with
  | none =>
    simp only [findMatch_eq_find?, he]
    cases (List.find? (fun p => memb p.2 "") m) <;> rfl
  | some i =>
    by_cases hg : (filename.toList.take i).any (fun c => c != '.') = true
    · simp only [hg, if_true, findMatch_eq_find?]
      cases (List.find? (fun p => memb p.2 (lowerStr (String.mk (filename.toList.drop i)))) m) <;> rfl
    · simp only [Bool.not_eq_true] at hg
      simp only [hg, Bool.false_eq_true, if_false, findMatch_eq_find?, he]
      cases (List.find? (fun p => memb p.2 "") m) <;> rfl

/-! ## C10: end-to-end case-insensitivity -/

theorem toNat_ofNat_of_lt {n : Nat} (h : n < 55296) : (Char.ofNat n).toNat = n := by
  have hv : n.isValidChar := Or.inl h
  rw [Char.ofNat, dif_pos hv]
  rfl

theorem toLower_eq_dot_iff (c : Char) : Char.toLower c = '.' ↔ c = '.' := by
  unfold Char.toLower
  by_cases h : c.toNat ≥ 65 ∧ c.toNat ≤ 90
  · rw [if_pos h]
    constructor
    · intro he
      exfalso
      have hval : (Char.ofNat (c.toNat + 32)).toNat = c.toNat + 32 :=
        toNat_ofNat_of_lt (by omega)
      rw [he] at hval
      have : ('.' : Char).toNat = 46 := rfl
      omega
    · intro he
      exfalso
      have : c.toNat = 46 := by rw [he]; rfl
      omega
  · rw [if_neg h]

theorem toLower_bne_dot (c : Char) : (Char.toLower c != '.') = (c != '.') := by
  by_cases hc : c = '.'
  · subst hc; rfl
  · have h2 : Char.toLower c ≠ '.' := fun he => hc ((toLower_eq_dot_iff c).1 he)
    have e1 : (Char.toLower c != '.') = true := bne_iff_ne.2 h2
    have e2 : (c != '.') = true := bne_iff_ne.2 hc
    rw [e1, e2]

theorem lastDotIdx_map_toLower (cs : List Char) :
    lastDotIdx (cs.map Char.toLower) = lastDotIdx cs := by
  induction cs with
  | nil => rfl
  | cons c cs ih =>
    simp only [List.map_cons, lastDotIdx, ih]
    cases lastDotIdx cs with
    | some i => rfl
    | none =>
      by_cases hc : c = '.'
      · subst hc; rfl
      · have h2 : Char.toLower c ≠ '.' := fun he => hc ((toLower_eq_dot_iff c).1 he)
        rw [if_neg h2, if_neg hc]

theorem any_ne_dot_map (l : List Char) :
    ((l.map Char.toLower).any fun c => c != '.') = (l.any fun c => c != '.') := by
  induction l with
  | nil => rfl
  | cons c l ih => simp only [List.map_cons, List.any_cons, ih, toLower_bne_dot]

theorem lowerStr_toList (s : String) : (lowerStr s).toList = s.toList.map Char.toLower := rfl

theorem lowerStr_splitext_congr {a b : String} (h : lowerStr a = lowerStr b) :
    lowerStr (splitextExt a) = lowerStr (splitextExt b) := by
  have hmap : a.toList.map Char.toLower = b.toList.map Char.toLower := by
    have h2 := congrArg String.toList h
    rwa [lowerStr_toList, lowerStr_toList] at h2
  have hidx : lastDotIdx a.toList = lastDotIdx b.toList := by
    rw [← lastDotIdx_map_toLower a.toList, hmap, lastDotIdx_map_toLower]
  unfold splitextExt
  rw [hidx]
  cases hL : lastDotIdx b.toList with
  | none => rfl
  | some i =>
    dsimp only
    have hguard : ((a.toList.take i).any fun c => c != '.')
        = ((b.toList.take i).any fun c => c != '.') := by
      rw [← any_ne_dot_map (a.toList.take i), ← any_ne_dot_map (b.toList.take i),
        List.map_take, List.map_take, hmap]
    rw [hguard]
    by_cases hg : ((b.toList.take i).any fun c => c != '.') = true
    · rw [if_pos hg, if_pos hg]
      show String.mk ((a.toList.drop i).map Char.toLower)
          = String.mk ((b.toList.drop i).map Char.toLower)
      rw [List.map_drop, List.map_drop, hmap]
    · rw [if_neg hg, if_neg hg]

theorem map_lowerStr_congr {xs ys : List String}
    (h : List.Forall₂ (fun a b => lowerStr a = lowerStr b) xs ys) :
    xs.map lowerStr = ys.map lowerStr := by
  induction h with
  | nil => rfl
  | cons hab _ ih => simp [ih, hab]

/-- C10: classification composed with configuration loading is
case-insensitive end to end.  If two raw configuration documents agree up
to letter case of their extension strings (same categories, in the same
order), and two filenames agree up to letter case, the loaded mappings
classify them identically — the resolver lowercases every configured
extension and the classifier lowercases the computed extension. -/
theorem classification_case_insensitive (rawA rawB : List (String × List String))
    (fnA fnB : String)
    (hcfg : List.Forall₂ (fun p q => p.1 = q.1 ∧
      List.Forall₂ (fun a b => lowerStr a = lowerStr b) p.2 q.2) rawA rawB)
    (hfn : lowerStr fnA = lowerStr fnB) :
    classifyFile (load_mappings (some rawA)) fnA
      = classifyFile (load_mappings (some rawB)) fnB := by
  have hmap : load_mappings (some rawA) = load_mappings (some rawB) := by
    unfold load_mappings
    induction hcfg with
    | nil => rfl
    | cons hpq _ ih =>
      obtain ⟨h1, h2⟩ := hpq
      simp only [List.map_cons, List.cons.injEq]
      exact ⟨by rw [Prod.ext_iff]; exact ⟨h1, map_lowerStr_congr h2⟩, by simpa using ih⟩
  have hext := lowerStr_splitext_congr hfn
  unfold classifyFile
  rw [hmap, hext]

theorem classification_case_insensitive_witness :
    (List.Forall₂ (fun p q => p.1 = q.1 ∧
        List.Forall₂ (fun a b => lowerStr a = lowerStr b) p.2 q.2)
      [("Documents", [".TXT"])] [("Documents", [".txt"])] ∧
      lowerStr "NOTES.TxT" = lowerStr "notes.txt") ∧
    classifyFile (load_mappings (some [("Documents", [".TXT"])])) "NOTES.TxT"
      = classifyFile (load_mappings (some [("Documents", [".txt"])])) "notes.txt" :=
  ⟨⟨List.Forall₂.cons ⟨rfl, List.Forall₂.cons (by decide) List.Forall₂.nil⟩ List.Forall₂.nil,
    by decide⟩,
    classification_case_insensitive [("Documents", [".TXT"])] [("Documents", [".txt"])]
      "NOTES.TxT" "notes.txt"
      (List.Forall₂.cons ⟨rfl, List.Forall₂.cons (by decide) List.Forall₂.nil⟩ List.Forall₂.nil)
      (by decide)⟩

/-! ## Inversion lemmas for the run loops -/

theorem bind_ok_inv {ε α β : Type} {a : Except ε α} {f : α → Except ε β} {b : β}
    (h : (a >>= f) = .ok b) : ∃ x, a = .ok x ∧ f x = .ok b := by
  cases a with
  | error e => simp [Bind.bind, Except.bind] at h
  | ok x => exact ⟨x, rfl, h⟩

/-- Full case analysis of a successful `process_file` call: the destination
directory was ensured for the classified category, and the file was either
skipped on collision, left alone on a move error, or moved. -/
theorem process_file_cases {d : Dir} {f : String} {m : CategoryMap} {s : Summary}
    {o : MoveOracle} {d1 : Dir} {s1 : Summary} {out : Outcome} {msg : String}
    (h : process_file d f m s o = .ok (d1, s1, out, msg)) :
    ∃ dm, makedirs d (classifyFile m f) = .ok dm ∧
      ((destExists dm (classifyFile m f) f = true ∧ d1 = dm ∧ s1 = s ∧
          out = .skipped (classifyFile m f) f ∧ msg = skippedMsg (classifyFile m f) f) ∨
       (destExists dm (classifyFile m f) f = false ∧
         ((∃ e, o (classifyFile m f) f = some e ∧ d1 = dm ∧ s1 = s ∧
             out = .errored (classifyFile m f) f e) ∨
          (o (classifyFile m f) f = none ∧ d1 = moveFile dm (classifyFile m f) f ∧
             s1 = bump s (classifyFile m f) ∧ out = .moved (classifyFile m f) f ∧
             msg = movedMsg (classifyFile m f) f)))) := by
  simp only [process_file] at h
  cases hf : findMatch m (lowerStr (splitextExt f)) with
  | some cat =>
    have hcl : classifyFile m f = cat := by unfold classifyFile; rw [hf]
    rw [hf] at h
    rw [hcl]
    obtain ⟨dm, hmk, h⟩ := bind_ok_inv h
    refine ⟨dm, hmk, ?_⟩
    by_cases hex : destExists dm cat f = true
    · rw [if_pos hex] at h
      simp only [Except.ok.injEq, Prod.mk.injEq] at h
      obtain ⟨h1, h2, h3, h4⟩ := h
      exact Or.inl ⟨hex, h1.symm, h2.symm, h3.symm, h4.symm⟩
    · rw [if_neg hex] at h
      refine Or.inr ⟨Bool.not_eq_true _ ▸ hex, ?_⟩
      cases ho : o cat f with
      | some e =>
        rw [ho] at h
        simp only [Except.ok.injEq, Prod.mk.injEq] at h
        obtain ⟨h1, h2, h3, _⟩ := h
        exact Or.inl ⟨e, rfl, h1.symm, h2.symm, h3.symm⟩
      | none =>
        rw [ho] at h
        simp only [Except.ok.injEq, Prod.mk.injEq] at h
        obtain ⟨h1, h2, h3, h4⟩ := h
        exact Or.inr ⟨rfl, h1.symm, h2.symm, h3.symm, h4.symm⟩
  | none =>
    have hcl : classifyFile m f = "Others" := by unfold classifyFile; rw [hf]
    rw [hf] at h
    rw [hcl]
    obtain ⟨dm, hmk, h⟩ := bind_ok_inv h
    refine ⟨dm, hmk, ?_⟩
    by_cases hex : destExists dm "Others" f = true
    · rw [if_pos hex] at h
      simp only [Except.ok.injEq, Prod.mk.injEq] at h
      obtain ⟨h1, h2, h3, h4⟩ := h
      exact Or.inl ⟨hex, h1.symm, h2.symm, h3.symm, h4.symm⟩
    · rw [if_neg hex] at h
      refine Or.inr ⟨Bool.not_eq_true _ ▸ hex, ?_⟩
      cases ho : o "Others" f with
      | some e =>
        rw [ho] at h
        simp only [Except.ok.injEq, Prod.mk.injEq] at h
        obtain ⟨h1, h2, h3, _⟩ := h
        exact Or.inl ⟨e, rfl, h1.symm, h2.symm, h3.symm⟩
      | none =>
        rw [ho] at h
        simp only [Except.ok.injEq, Prod.mk.injEq] at h
        obtain ⟨h1, h2, h3, h4⟩ := h
        exact Or.inr ⟨rfl, h1.symm, h2.symm, h3.symm, h4.symm⟩

/-- One `process_file` call bumps exactly the counter of the category it
moved the file into, and no counter otherwise. -/
theorem process_file_summary {d : Dir} {f : String} {m : CategoryMap} {s : Summary}
    {o : MoveOracle} {d1 : Dir} {s1 : Summary} {out : Outcome} {msg : String}
    (h : process_file d f m s o = .ok (d1, s1, out, msg)) (cat : String) :
    s1 cat = s cat + (if isMovedTo cat out then 1 else 0) := by
  obtain ⟨dm, _, hrest⟩ := process_file_cases h
  rcases hrest with ⟨_, _, hs, hout, _⟩ | ⟨_, ⟨e, _, _, hs, hout⟩ | ⟨_, _, hs, hout, _⟩⟩
  · subst hs hout; simp [isMovedTo]
  · subst hs hout; simp [isMovedTo]
  · subst hs hout
    by_cases hcc : cat = classifyFile m f
    · subst hcc; simp [isMovedTo, bump]
    · have : (classifyFile m f == cat) = false := by
        simp [beq_iff_eq]; exact fun he => hcc he.symm
      simp [isMovedTo, bump, this, hcc]

theorem outcomes_partition (outs : List Outcome) :
    outs.countP isMoved + outs.countP isSkipped + outs.countP isErrored = outs.length := by
  induction outs with
  | nil => rfl
  | cons o rest ih =>
    cases o <;> simp [List.countP_cons, isMoved, isSkipped, isErrored] <;> omega

/-- Counting invariant of the non-recursive loop. -/
theorem processListed_counts (m : CategoryMap) (o : MoveOracle) :
    ∀ (fs : List String) (d : Dir) (s : Summary) (t : Nat)
      {d2 : Dir} {s2 : Summary} {t2 : Nat} {msgs : List String} {outs : List Outcome},
      processListed m o fs d s t = .ok (d2, s2, t2, msgs, outs) →
      (∀ cat, s2 cat = s cat + outs.countP (isMovedTo cat)) ∧ t2 = t + outs.length := by
  intro fs
  induction fs with
  | nil =>
    intro d s t d2 s2 t2 msgs outs h
    rw [processListed] at h
    simp only [Except.ok.injEq, Prod.mk.injEq] at h
    obtain ⟨_, h2, h3, _, h5⟩ := h
    subst h2 h3 h5
    simp
  | cons f rest ih =>
    intro d s t d2 s2 t2 msgs outs h
    rw [processListed] at h
    by_cases hm : memb d.files f = true
    · rw [if_pos hm] at h
      obtain ⟨p, hp, h⟩ := bind_ok_inv h
      obtain ⟨da, sa, outa, msga⟩ := p
      dsimp only at h
      obtain ⟨q, hq, h⟩ := bind_ok_inv h
      obtain ⟨db, sb, tb, msgsb, outsb⟩ := q
      dsimp only at h
      simp only [Except.ok.injEq, Prod.mk.injEq] at h
      obtain ⟨h1, h2, h3, h4, h5⟩ := h
      subst h1 h2 h3 h4 h5
      obtain ⟨ihs, iht⟩ := ih _ _ _ hq
      refine ⟨fun cat => ?_, ?_⟩
      · rw [ihs cat, process_file_summary hp cat, List.countP_cons]
        omega
      · rw [iht]; simp [List.length_cons]; omega
    · rw [if_neg hm] at h
      exact ih _ _ _ h

/-- Counting invariant of the recursive per-directory loop. -/
theorem walkFiles_counts (m : CategoryMap) (o : MoveOracle) (path : List String) :
    ∀ (fs : List String) (d : Dir) (s : Summary) (t : Nat)
      {d2 : Dir} {s2 : Summary} {t2 : Nat} {msgs : List String} {outs : List Outcome}
      {procs : List (List String × String)},
      walkFiles m o path fs d s t = .ok (d2, s2, t2, msgs, outs, procs) →
      (∀ cat, s2 cat = s cat + outs.countP (isMovedTo cat)) ∧ t2 = t + outs.length := by
  intro fs
  induction fs with
  | nil =>
    intro d s t d2 s2 t2 msgs outs procs h
    rw [walkFiles] at h
    simp only [Except.ok.injEq, Prod.mk.injEq] at h
    obtain ⟨_, h2, h3, _, h5, _⟩ := h
    subst h2 h3 h5
    simp
  | cons f rest ih =>
    intro d s t d2 s2 t2 msgs outs procs h
    rw [walkFiles] at h
    obtain ⟨p, hp, h⟩ := bind_ok_inv h
    obtain ⟨da, sa, outa, msga⟩ := p
    dsimp only at h
    obtain ⟨q, hq, h⟩ := bind_ok_inv h
    obtain ⟨db, sb, tb, msgsb, outsb, procsb⟩ := q
    dsimp only at h
    simp only [Except.ok.injEq, Prod.mk.injEq] at h
    obtain ⟨h1, h2, h3, h4, h5, h6⟩ := h
    subst h1 h2 h3 h4 h5 h6
    obtain ⟨ihs, iht⟩ := ih _ _ _ hq
    refine ⟨fun cat => ?_, ?_⟩
    · rw [ihs cat, process_file_summary hp cat, List.countP_cons]
      omega
    · rw [iht]; simp [List.length_cons]; omega

/-- Counting invariant of the recursive walk. -/
theorem walk_counts (m : CategoryMap) (o : MoveOracle) :
    ∀ (path : List String) (d : Dir) (s : Summary) (t : Nat)
      (d2 : Dir) (s2 : Summary) (t2 : Nat) (msgs : List String) (outs : List Outcome)
      (procs : List (List String × String)),
      walkDir m o path d s t = .ok (d2, s2, t2, msgs, outs, procs) →
      (∀ cat, s2 cat = s cat + outs.countP (isMovedTo cat)) ∧ t2 = t + outs.length := by
  have main :=
    walkDir.mutual_induct m o
      (motive_1 := fun path d s t =>
        ∀ (d2 : Dir) (s2 : Summary) (t2 : Nat) (msgs : List String) (outs : List Outcome)
          (procs : List (List String × String)),
          walkDir m o path d s t = .ok (d2, s2, t2, msgs, outs, procs) →
          (∀ cat, s2 cat = s cat + outs.countP (isMovedTo cat)) ∧ t2 = t + outs.length)
      (motive_2 := fun path l s t =>
        ∀ (l2 : List (String × Dir)) (s2 : Summary) (t2 : Nat) (msgs : List String)
          (outs : List Outcome) (procs : List (List String × String)),
          walkSubdirs m o path l s t = .ok (l2, s2, t2, msgs, outs, procs) →
          (∀ cat, s2 cat = s cat + outs.countP (isMovedTo cat)) ∧ t2 = t + outs.length)
  refine fun path d s t d2 s2 t2 msgs outs procs h =>
    (main ?_ ?_ ?_ ?_).1 path d s t d2 s2 t2 msgs outs procs h
  · intro path fs subs s total ih d2 s2 t2 msgs outs procs h
    rw [walkDir] at h
    obtain ⟨p, hp, h⟩ := bind_ok_inv h
    obtain ⟨da, sa, ta, msgsa, outsa, procsa⟩ := p
    dsimp only at h
    obtain ⟨q, hq, h⟩ := bind_ok_inv h
    obtain ⟨lb, sb, tb, msgsb, outsb, procsb⟩ := q
    dsimp only at h
    simp only [Except.ok.injEq, Prod.mk.injEq] at h
    obtain ⟨h1, h2, h3, h4, h5, h6⟩ := h
    subst h2 h3 h5
    obtain ⟨fs1, ft1⟩ := walkFiles_counts m o path fs (Dir.mk fs subs) s total hp
    obtain ⟨ss1, st1⟩ := ih sa ta _ _ _ _ _ _ hq
    refine ⟨fun cat => ?_, ?_⟩
    · rw [ss1 cat, fs1 cat, List.countP_append]
      omega
    · rw [st1, ft1, List.length_append]
      omega
  · intro path s total l2 s2 t2 msgs outs procs h
    rw [walkSubdirs] at h
    simp only [Except.ok.injEq, Prod.mk.injEq] at h
    obtain ⟨_, h2, h3, _, h5, _⟩ := h
    subst h2 h3 h5
    simp
  · intro path n c rest s total hok ihdir ihrest l2 s2 t2 msgs outs procs h
    rw [walkSubdirs, if_pos hok] at h
    obtain ⟨p, hp, h⟩ := bind_ok_inv h
    obtain ⟨ca, sa, ta, msgsa, outsa, procsa⟩ := p
    dsimp only at h
    obtain ⟨q, hq, h⟩ := bind_ok_inv h
    obtain ⟨lb, sb, tb, msgsb, outsb, procsb⟩ := q
    dsimp only at h
    simp only [Except.ok.injEq, Prod.mk.injEq] at h
    obtain ⟨h1, h2, h3, h4, h5, h6⟩ := h
    subst h2 h3 h5
    obtain ⟨ds1, dt1⟩ := ihdir _ _ _ _ _ _ hp
    obtain ⟨rs1, rt1⟩ := ihrest sa ta _ _ _ _ _ _ hq
    refine ⟨fun cat => ?_, ?_⟩
    · rw [rs1 cat, ds1 cat, List.countP_append]
      omega
    · rw [rt1, dt1, List.length_append]
      omega
  · intro path n c rest s total hok ihrest l2 s2 t2 msgs outs procs h
    rw [walkSubdirs, if_neg hok] at h
    obtain ⟨q, hq, h⟩ := bind_ok_inv h
    obtain ⟨lb, sb, tb, msgsb, outsb, procsb⟩ := q
    dsimp only at h
    simp only [Except.ok.injEq, Prod.mk.injEq] at h
    obtain ⟨h1, h2, h3, h4, h5, h6⟩ := h
    subst h2 h3 h5
    exact ihrest _ _ _ _ _ _ hq

/-! ## C2: the summary counts the outcomes -/

/-- C2: in every completed run (a Summary is returned), each category's
counter equals the number of Moved outcomes for that category, and
`total_files_processed` equals the number of Moved, Skipped and Error
outcomes combined — one outcome is recorded per file encountered,
whatever it is. -/
theorem summary_matches_outcomes (folder_path : String) (root : Option Dir)
    (m : CategoryMap) (recursive : Bool) (oracle : MoveOracle) (out : RunOutput)
    (st : Summary × Nat)
    (h : organize_folder folder_path root m recursive oracle = .ok out)
    (hres : out.result = some st) :
    (∀ cat, st.1 cat = out.outcomes.countP (isMovedTo cat)) ∧
    st.2 = out.outcomes.countP isMoved + out.outcomes.countP isSkipped +
      out.outcomes.countP isErrored := by
  unfold organize_folder at h
  cases root with
  | none =>
    dsimp only at h
    simp only [Except.ok.injEq] at h
    rw [← h] at hres
    simp at hres
  | some d =>
    dsimp only at h
    by_cases hp : folder_path = ""
    · rw [if_pos hp] at h
      simp only [Except.ok.injEq] at h
      rw [← h] at hres
      simp at hres
    · rw [if_neg hp] at h
      cases recursive with
      | true =>
        simp only [if_true] at h
        obtain ⟨p, hw, h⟩ := bind_ok_inv h
        obtain ⟨d1, s1, t1, msgs, outs, procs⟩ := p
        dsimp only at h
        simp only [Except.ok.injEq] at h
        rw [← h] at hres
        simp only [RunOutput.result] at hres
        injection hres with hres
        obtain ⟨hs0, ht0⟩ := walk_counts m oracle [] d (fun _ => 0) 0 d1 s1 t1 msgs outs procs hw
        rw [← h, ← hres]
        refine ⟨fun cat => by simpa using hs0 cat, ?_⟩
        simp only [RunOutput.outcomes]
        rw [outcomes_partition]
        simpa using ht0
      | false =>
        simp only [Bool.false_eq_true, if_false] at h
        obtain ⟨p, hw, h⟩ := bind_ok_inv h
        obtain ⟨d1, s1, t1, msgs, outs⟩ := p
        dsimp only at h
        simp only [Except.ok.injEq] at h
        rw [← h] at hres
        simp only [RunOutput.result] at hres
        injection hres with hres
        obtain ⟨hs0, ht0⟩ := processListed_counts m oracle d.files d (fun _ => 0) 0 hw
        rw [← h, ← hres]
        refine ⟨fun cat => by simpa using hs0 cat, ?_⟩
        simp only [RunOutput.outcomes]
        rw [outcomes_partition]
        simpa using ht0

theorem summary_matches_outcomes_witness :
    (organize_folder "r" (some (Dir.mk ["a.jpg", "b.txt", "c.xyz"] []))
        [("Images", [".jpg"]), ("Documents", [".txt"])] false (fun _ _ => none) =
      .ok ⟨some (bump (bump (bump (fun _ => 0) "Images") "Documents") "Others", 3),
        some (Dir.mk [] [("Images", Dir.mk ["a.jpg"] []), ("Documents", Dir.mk ["b.txt"] []),
          ("Others", Dir.mk ["c.xyz"] [])]),
        [movedMsg "Images" "a.jpg", movedMsg "Documents" "b.txt", movedMsg "Others" "c.xyz"],
        [.moved "Images" "a.jpg", .moved "Documents" "b.txt", .moved "Others" "c.xyz"],
        [([], "a.jpg"), ([], "b.txt"), ([], "c.xyz")]⟩ ∧
      (RunOutput.mk
        (some (bump (bump (bump (fun _ => 0) "Images") "Documents") "Others", 3))
        (some (Dir.mk [] [("Images", Dir.mk ["a.jpg"] []), ("Documents", Dir.mk ["b.txt"] []),
          ("Others", Dir.mk ["c.xyz"] [])]))
        [movedMsg "Images" "a.jpg", movedMsg "Documents" "b.txt", movedMsg "Others" "c.xyz"]
        [.moved "Images" "a.jpg", .moved "Documents" "b.txt", .moved "Others" "c.xyz"]
        [([], "a.jpg"), ([], "b.txt"), ([], "c.xyz")]).result =
      some (bump (bump (bump (fun _ => 0) "Images") "Documents") "Others", 3)) ∧
    ((∀ cat, (bump (bump (bump (fun _ => 0) "Images") "Documents") "Others") cat =
        List.countP (isMovedTo cat)
          [Outcome.moved "Images" "a.jpg", Outcome.moved "Documents" "b.txt",
            Outcome.moved "Others" "c.xyz"]) ∧
      3 = List.countP isMoved
          [Outcome.moved "Images" "a.jpg", Outcome.moved "Documents" "b.txt",
            Outcome.moved "Others" "c.xyz"] +
        List.countP isSkipped
          [Outcome.moved "Images" "a.jpg", Outcome.moved "Documents" "b.txt",
            Outcome.moved "Others" "c.xyz"] +
        List.countP isErrored
          [Outcome.moved "Images" "a.jpg", Outcome.moved "Documents" "b.txt",
            Outcome.moved "Others" "c.xyz"]) :=
  ⟨⟨rfl, rfl⟩,
    summary_matches_outcomes "r" (some (Dir.mk ["a.jpg", "b.txt", "c.xyz"] []))
      [("Images", [".jpg"]), ("Documents", [".txt"])] false (fun _ _ => none)
      (RunOutput.mk
        (some (bump (bump (bump (fun _ => 0) "Images") "Documents") "Others", 3))
        (some (Dir.mk [] [("Images", Dir.mk ["a.jpg"] []), ("Documents", Dir.mk ["b.txt"] []),
          ("Others", Dir.mk ["c.xyz"] [])]))
        [movedMsg "Images" "a.jpg", movedMsg "Documents" "b.txt", movedMsg "Others" "c.xyz"]
        [.moved "Images" "a.jpg", .moved "Documents" "b.txt", .moved "Others" "c.xyz"]
        [([], "a.jpg"), ([], "b.txt"), ([], "c.xyz")])
      (bump (bump (bump (fun _ => 0) "Images") "Documents") "Others", 3) rfl rfl⟩

/-! ## C5: what aborts a run -/

theorem makedirs_error_inv {d : Dir} {n e : String} (h : makedirs d n = .error e) :
    e = "FileExistsError: " ++ n := by
  unfold makedirs at h
  split at h
  · cases h
  · split at h
    · injection h with h; exact h.symm
    · cases h

theorem bind_error_inv {ε α β : Type} {a : Except ε α} {f : α → Except ε β} {e : ε}
    (h : (a >>= f) = .error e) : a = .error e ∨ ∃ x, a = .ok x ∧ f x = .error e := by
  cases a with
  | error e2 =>
    left
    have h2 : (Except.error e2 : Except ε β) = .error e := h
    injection h2 with h2
    rw [h2]
  | ok x => exact Or.inr ⟨x, rfl, h⟩

/-- The only exception that can escape `process_file` is the uncaught
`FileExistsError` of `os.makedirs` on the classified destination name. -/
theorem process_file_error_inv {d : Dir} {f : String} {m : CategoryMap} {s : Summary}
    {o : MoveOracle} {e : String} (h : process_file d f m s o = .error e) :
    IsMkdirErr m e := by
  simp only [process_file] at h
  cases hf : findMatch m (lowerStr (splitextExt f)) with
  | some cat =>
    rw [hf] at h
    rcases bind_error_inv h with hmk | ⟨dm, _, h⟩
    · exact ⟨cat, Or.inl (findMatch_mem hf), makedirs_error_inv hmk⟩
    · exfalso
      by_cases hex : destExists dm cat f = true
      · rw [if_pos hex] at h; cases h
      · rw [if_neg hex] at h
        cases ho : o cat f with
        | some e2 => rw [ho] at h; cases h
        | none => rw [ho] at h; cases h
  | none =>
    rw [hf] at h
    rcases bind_error_inv h with hmk | ⟨dm, _, h⟩
    · exact ⟨"Others", Or.inr rfl, makedirs_error_inv hmk⟩
    · exfalso
      by_cases hex : destExists dm "Others" f = true
      · rw [if_pos hex] at h; cases h
      · rw [if_neg hex] at h
        cases ho : o "Others" f with
        | some e2 => rw [ho] at h; cases h
        | none => rw [ho] at h; cases h

theorem processListed_error_inv (m : CategoryMap) (o : MoveOracle) :
    ∀ (fs : List String) (d : Dir) (s : Summary) (t : Nat) {e : String},
      processListed m o fs d s t = .error e → IsMkdirErr m e := by
  intro fs
  induction fs with
  | nil => intro d s t e h; rw [processListed] at h; cases h
  | cons f rest ih =>
    intro d s t e h
    rw [processListed] at h
    by_cases hm : memb d.files f = true
    · rw [if_pos hm] at h
      rcases bind_error_inv h with hp | ⟨p, _, h⟩
      · exact process_file_error_inv hp
      · obtain ⟨da, sa, outa, msga⟩ := p
        dsimp only at h
        rcases bind_error_inv h with hr | ⟨q, _, h⟩
        · exact ih _ _ _ hr
        · obtain ⟨db, sb, tb, msgsb, outsb⟩ := q
          dsimp only at h
          cases h
    · rw [if_neg hm] at h
      exact ih _ _ _ h

theorem walkFiles_error_inv (m : CategoryMap) (o : MoveOracle) (path : List String) :
    ∀ (fs : List String) (d : Dir) (s : Summary) (t : Nat) {e : String},
      walkFiles m o path fs d s t = .error e → IsMkdirErr m e := by
  intro fs
  induction fs with
  | nil => intro d s t e h; rw [walkFiles] at h; cases h
  | cons f rest ih =>
    intro d s t e h
    rw [walkFiles] at h
    rcases bind_error_inv h with hp | ⟨p, _, h⟩
    · exact process_file_error_inv hp
    · obtain ⟨da, sa, outa, msga⟩ := p
      dsimp only at h
      rcases bind_error_inv h with hr | ⟨q, _, h⟩
      · exact ih _ _ _ hr
      · obtain ⟨db, sb, tb, msgsb, outsb, procsb⟩ := q
        dsimp only at h
        cases h

theorem walk_error_inv (m : CategoryMap) (o : MoveOracle) :
    ∀ (path : List String) (d : Dir) (s : Summary) (t : Nat) (e : String),
      walkDir m o path d s t = .error e → IsMkdirErr m e := by
  have main :=
    walkDir.mutual_induct m o
      (motive_1 := fun path d s t =>
        ∀ (e : String), walkDir m o path d s t = .error e → IsMkdirErr m e)
      (motive_2 := fun path l s t =>
        ∀ (e : String), walkSubdirs m o path l s t = .error e → IsMkdirErr m e)
  refine fun path d s t e h => (main ?_ ?_ ?_ ?_).1 path d s t e h
  · intro path fs subs s total ih e h
    rw [walkDir] at h
    rcases bind_error_inv h with hp | ⟨p, _, h⟩
    · exact walkFiles_error_inv m o path fs (Dir.mk fs subs) s total hp
    · obtain ⟨da, sa, ta, msgsa, outsa, procsa⟩ := p
      dsimp only at h
      rcases bind_error_inv h with hr | ⟨q, _, h⟩
      · exact ih sa ta e hr
      · obtain ⟨lb, sb, tb, msgsb, outsb, procsb⟩ := q
        dsimp only at h
        cases h
  · intro path s total e h
    rw [walkSubdirs] at h
    cases h
  · intro path n c rest s total hok ihdir ihrest e h
    rw [walkSubdirs, if_pos hok] at h
    rcases bind_error_inv h with hp | ⟨p, _, h⟩
    · exact ihdir e hp
    · obtain ⟨ca, sa, ta, msgsa, outsa, procsa⟩ := p
      dsimp only at h
      rcases bind_error_inv h with hr | ⟨q, _, h⟩
      · exact ihrest sa ta e hr
      · obtain ⟨lb, sb, tb, msgsb, outsb, procsb⟩ := q
        dsimp only at h
        cases h
  · intro path n c rest s total hok ihrest e h
    rw [walkSubdirs, if_neg hok] at h
    rcases bind_error_inv h with hr | ⟨q, _, h⟩
    · exact ihrest e hr
    · obtain ⟨lb, sb, tb, msgsb, outsb, procsb⟩ := q
      dsimp only at h
      cases h

/-- A run over a valid root that terminates normally always hands back a
Summary. -/
theorem organize_ok_result {folder_path : String} {d : Dir} {m : CategoryMap}
    {recursive : Bool} {oracle : MoveOracle} {out : RunOutput}
    (hpath : folder_path ≠ "")
    (h : organize_folder folder_path (some d) m recursive oracle = .ok out) :
    ∃ st, out.result = some st := by
  unfold organize_folder at h
  dsimp only at h
  rw [if_neg hpath] at h
  cases recursive with
  | true =>
    simp only [if_true] at h
    obtain ⟨p, _, h⟩ := bind_ok_inv h
    obtain ⟨d1, s1, t1, msgs, outs, procs⟩ := p
    dsimp only at h
    injection h with h
    rw [← h]
    exact ⟨(s1, t1), rfl⟩
  | false =>
    simp only [Bool.false_eq_true, if_false] at h
    obtain ⟨p, _, h⟩ := bind_ok_inv h
    obtain ⟨d1, s1, t1, msgs, outs⟩ := p
    dsimp only at h
    injection h with h
    rw [← h]
    exact ⟨(s1, t1), rfl⟩

/-- The only way any run can abort with an exception is an uncaught
`FileExistsError` from destination-directory creation. -/
theorem organize_error_inv {folder_path : String} {root : Option Dir} {m : CategoryMap}
    {recursive : Bool} {oracle : MoveOracle} {e : String}
    (h : organize_folder folder_path root m recursive oracle = .error e) :
    IsMkdirErr m e := by
  unfold organize_folder at h
  cases root with
  | none => cases h
  | some d =>
    dsimp only at h
    by_cases hp : folder_path = ""
    · rw [if_pos hp] at h; cases h
    · rw [if_neg hp] at h
      cases recursive with
      | true =>
        simp only [if_true] at h
        rcases bind_error_inv h with hw | ⟨p, _, h⟩
        · exact walk_error_inv m oracle [] d _ 0 e hw
        · obtain ⟨d1, s1, t1, msgs, outs, procs⟩ := p
          dsimp only at h
          cases h
      | false =>
        simp only [Bool.false_eq_true, if_false] at h
        rcases bind_error_inv h with hw | ⟨p, _, h⟩
        · exact processListed_error_inv m oracle d.files d _ 0 hw
        · obtain ⟨d1, s1, t1, msgs, outs⟩ := p
          dsimp only at h
          cases h

/-- C5, counterexample: the root is a valid directory holding the regular
files "a.jpg" and "Images"; handling "a.jpg" raises a filesystem error
(`os.makedirs` hits the regular file "Images") which is not recovered —
the run aborts with the exception and returns no Summary. -/
theorem per_file_error_aborts_counterexample :
    organize_folder "r" (some (Dir.mk ["a.jpg", "Images"] [])) [("Images", [".jpg"])] false
        (fun _ _ => none) = .error ("FileExistsError: " ++ "Images") ∧
    ∀ out, organize_folder "r" (some (Dir.mk ["a.jpg", "Images"] [])) [("Images", [".jpg"])]
        false (fun _ _ => none) ≠ .ok out := by
  refine ⟨rfl, fun out h => ?_⟩
  have e : organize_folder "r" (some (Dir.mk ["a.jpg", "Images"] [])) [("Images", [".jpg"])]
      false (fun _ _ => none) = .error ("FileExistsError: " ++ "Images") := rfl
  rw [e] at h
  exact Except.noConfusion h

/-- C5 as amended: over a valid root, a filesystem error raised by the move
operation itself is always recovered locally (it can never abort the run):
a run either terminates normally with a Summary, or aborts with an uncaught
`FileExistsError` from `os.makedirs` — a regular file bearing a configured
category name or "Others" standing where a destination directory must be
created.  Configuration errors and an invalid root abort before any file is
touched. -/
theorem per_file_move_errors_never_abort (folder_path : String) (d : Dir)
    (m : CategoryMap) (recursive : Bool) (oracle : MoveOracle)
    (hpath : folder_path ≠ "") :
    (∃ out, organize_folder folder_path (some d) m recursive oracle = .ok out ∧
      ∃ st, out.result = some st) ∨
    (∃ e, organize_folder folder_path (some d) m recursive oracle = .error e ∧
      IsMkdirErr m e) := by
  cases ho : organize_folder folder_path (some d) m recursive oracle with
  | ok out => exact Or.inl ⟨out, rfl, organize_ok_result hpath ho⟩
  | error e => exact Or.inr ⟨e, rfl, organize_error_inv ho⟩

theorem per_file_move_errors_never_abort_witness :
    ("r" : String) ≠ "" ∧
    ((∃ out, organize_folder "r" (some (Dir.mk ["b.txt"] [])) [("Documents", [".txt"])] false
        (fun _ _ => some "boom") = .ok out ∧ ∃ st, out.result = some st) ∨
     (∃ e, organize_folder "r" (some (Dir.mk ["b.txt"] [])) [("Documents", [".txt"])] false
        (fun _ _ => some "boom") = .error e ∧
        IsMkdirErr [("Documents", [".txt"])] e)) :=
  ⟨by decide,
    per_file_move_errors_never_abort "r" (Dir.mk ["b.txt"] []) [("Documents", [".txt"])] false
      (fun _ _ => some "boom") (by decide)⟩

/-! ## C7: the recursive traversal never enters category directories -/

theorem okDirName_iff (m : CategoryMap) (n : String) :
    okDirName m n = true ↔ n ∉ m.map Prod.fst ∧ n ≠ "Others" := by
  unfold okDirName
  rw [Bool.and_eq_true, Bool.not_eq_true', bne_iff_ne]
  constructor
  · rintro ⟨h1, h2⟩
    refine ⟨fun hmem => ?_, h2⟩
    rw [(memb_iff _ _).2 hmem] at h1
    cases h1
  · rintro ⟨h1, h2⟩
    refine ⟨?_, h2⟩
    cases hm : memb (m.map Prod.fst) n
    · rfl
    · exact absurd ((memb_iff _ _).1 hm) h1

theorem walkFiles_procs (m : CategoryMap) (o : MoveOracle) (path : List String) :
    ∀ (fs : List String) (d : Dir) (s : Summary) (t : Nat)
      {d2 : Dir} {s2 : Summary} {t2 : Nat} {msgs : List String} {outs : List Outcome}
      {procs : List (List String × String)},
      walkFiles m o path fs d s t = .ok (d2, s2, t2, msgs, outs, procs) →
      ∀ pr ∈ procs, pr.1 = path := by
  intro fs
  induction fs with
  | nil =>
    intro d s t d2 s2 t2 msgs outs procs h
    rw [walkFiles] at h
    simp only [Except.ok.injEq, Prod.mk.injEq] at h
    obtain ⟨_, _, _, _, _, h6⟩ := h
    subst h6
    intro pr hpr
    cases hpr
  | cons f rest ih =>
    intro d s t d2 s2 t2 msgs outs procs h
    rw [walkFiles] at h
    obtain ⟨p, hp, h⟩ := bind_ok_inv h
    obtain ⟨da, sa, outa, msga⟩ := p
    dsimp only at h
    obtain ⟨q, hq, h⟩ := bind_ok_inv h
    obtain ⟨db, sb, tb, msgsb, outsb, procsb⟩ := q
    dsimp only at h
    simp only [Except.ok.injEq, Prod.mk.injEq] at h
    obtain ⟨_, _, _, _, _, h6⟩ := h
    subst h6
    intro pr hpr
    rcases List.mem_cons.1 hpr with hpr | hpr
    · rw [hpr]
    · exact ih _ _ _ hq pr hpr

/-- Every file processed by the walk lies under the entry path extended by
directory names that all pass the pruning filter. -/
theorem walk_procs_ok (m : CategoryMap) (o : MoveOracle) :
    ∀ (path : List String) (d : Dir) (s : Summary) (t : Nat)
      (d2 : Dir) (s2 : Summary) (t2 : Nat) (msgs : List String) (outs : List Outcome)
      (procs : List (List String × String)),
      walkDir m o path d s t = .ok (d2, s2, t2, msgs, outs, procs) →
      ∀ pr ∈ procs, ∃ suffix, pr.1 = path ++ suffix ∧
        ∀ c ∈ suffix, okDirName m c = true := by
  have main :=
    walkDir.mutual_induct m o
      (motive_1 := fun path d s t =>
        ∀ (d2 : Dir) (s2 : Summary) (t2 : Nat) (msgs : List String) (outs : List Outcome)
          (procs : List (List String × String)),
          walkDir m o path d s t = .ok (d2, s2, t2, msgs, outs, procs) →
          ∀ pr ∈ procs, ∃ suffix, pr.1 = path ++ suffix ∧
            ∀ c ∈ suffix, okDirName m c = true)
      (motive_2 := fun path l s t =>
        ∀ (l2 : List (String × Dir)) (s2 : Summary) (t2 : Nat) (msgs : List String)
          (outs : List Outcome) (procs : List (List String × String)),
          walkSubdirs m o path l s t = .ok (l2, s2, t2, msgs, outs, procs) →
          ∀ pr ∈ procs, ∃ suffix, pr.1 = path ++ suffix ∧
            ∀ c ∈ suffix, okDirName m c = true)
  refine fun path d s t d2 s2 t2 msgs outs procs h =>
    (main ?_ ?_ ?_ ?_).1 path d s t d2 s2 t2 msgs outs procs h
  · intro path fs subs s total ih d2 s2 t2 msgs outs procs h
    rw [walkDir] at h
    obtain ⟨p, hp, h⟩ := bind_ok_inv h
    obtain ⟨da, sa, ta, msgsa, outsa, procsa⟩ := p
    dsimp only at h
    obtain ⟨q, hq, h⟩ := bind_ok_inv h
    obtain ⟨lb, sb, tb, msgsb, outsb, procsb⟩ := q
    dsimp only at h
    simp only [Except.ok.injEq, Prod.mk.injEq] at h
    obtain ⟨_, _, _, _, _, h6⟩ := h
    subst h6
    intro pr hpr
    rcases List.mem_append.1 hpr with hpr | hpr
    · exact ⟨[], by rw [walkFiles_procs m o path fs _ s total hp pr hpr, List.append_nil],
        fun c hc => absurd hc (List.not_mem_nil c)⟩
    · exact ih sa ta lb sb tb msgsb outsb procsb hq pr hpr
  · intro path s total l2 s2 t2 msgs outs procs h
    rw [walkSubdirs] at h
    simp only [Except.ok.injEq, Prod.mk.injEq] at h
    obtain ⟨_, _, _, _, _, h6⟩ := h
    subst h6
    intro pr hpr
    cases hpr
  · intro path n c rest s total hok ihdir ihrest l2 s2 t2 msgs outs procs h
    rw [walkSubdirs, if_pos hok] at h
    obtain ⟨p, hp, h⟩ := bind_ok_inv h
    obtain ⟨ca, sa, ta, msgsa, outsa, procsa⟩ := p
    dsimp only at h
    obtain ⟨q, hq, h⟩ := bind_ok_inv h
    obtain ⟨lb, sb, tb, msgsb, outsb, procsb⟩ := q
    dsimp only at h
    simp only [Except.ok.injEq, Prod.mk.injEq] at h
    obtain ⟨_, _, _, _, _, h6⟩ := h
    subst h6
    intro pr hpr
    rcases List.mem_append.1 hpr with hpr | hpr
    · obtain ⟨suf, hsuf, hok2⟩ := ihdir ca sa ta msgsa outsa procsa hp pr hpr
      refine ⟨n :: suf, by rw [hsuf, List.append_assoc]; rfl, ?_⟩
      intro comp hcomp
      rcases List.mem_cons.1 hcomp with hcomp | hcomp
      · rw [hcomp]; exact hok
      · exact hok2 comp hcomp
    · exact ihrest sa ta lb sb tb msgsb outsb procsb hq pr hpr
  · intro path n c rest s total hok ihrest l2 s2 t2 msgs outs procs h
    rw [walkSubdirs, if_neg hok] at h
    obtain ⟨q, hq, h⟩ := bind_ok_inv h
    obtain ⟨lb, sb, tb, msgsb, outsb, procsb⟩ := q
    dsimp only at h
    simp only [Except.ok.injEq, Prod.mk.injEq] at h
    obtain ⟨_, _, _, _, _, h6⟩ := h
    subst h6
    exact fun pr hpr => ihrest lb sb tb msgsb outsb procsb hq pr hpr

/-- C7: in a recursive run, the walk prunes every subdirectory whose name is
a configured category name or the literal "Others" before descending, so
every file it processes (and hence every file it ever moves) lies in a
directory whose path from the root contains no such component: the
traversal never descends into, and never moves a file out of, a
category-named or "Others" subdirectory. -/
theorem recursive_never_enters_category_dirs (folder_path : String) (d : Dir)
    (m : CategoryMap) (oracle : MoveOracle) (out : RunOutput)
    (h : organize_folder folder_path (some d) m true oracle = .ok out) :
    ∀ pr ∈ out.processed, ∀ comp ∈ pr.1, comp ∉ m.map Prod.fst ∧ comp ≠ "Others" := by
  unfold organize_folder at h
  dsimp only at h
  by_cases hp : folder_path = ""
  · rw [if_pos hp] at h
    injection h with h
    rw [← h]
    intro pr hpr
    cases hpr
  · rw [if_neg hp] at h
    simp only [if_true] at h
    obtain ⟨p, hw, h⟩ := bind_ok_inv h
    obtain ⟨d1, s1, t1, msgs, outs, procs⟩ := p
    dsimp only at h
    injection h with h
    rw [← h]
    intro pr hpr comp hcomp
    obtain ⟨suffix, hsuf, hok⟩ :=
      walk_procs_ok m oracle [] d _ 0 d1 s1 t1 msgs outs procs hw pr hpr
    rw [hsuf, List.nil_append] at hcomp
    exact (okDirName_iff m comp).1 (hok comp hcomp)

theorem recursive_never_enters_category_dirs_witness :
    organize_folder "r"
        (some (Dir.mk ["a.jpg"]
          [("sub", Dir.mk ["b.txt", "x"] []), ("Images", Dir.mk ["trap.jpg"] [])]))
        [("Images", [".jpg"]), ("Documents", [".txt"])] true noFailOracle =
      .ok ⟨some (bump (bump (bump (fun _ => 0) "Images") "Documents") "Others", 3),
        some (Dir.mk []
          [("sub", Dir.mk [] [("Documents", Dir.mk ["b.txt"] []), ("Others", Dir.mk ["x"] [])]),
           ("Images", Dir.mk ["trap.jpg", "a.jpg"] [])]),
        [movedMsg "Images" "a.jpg", movedMsg "Documents" "b.txt", movedMsg "Others" "x"],
        [.moved "Images" "a.jpg", .moved "Documents" "b.txt", .moved "Others" "x"],
        [([], "a.jpg"), (["sub"], "b.txt"), (["sub"], "x")]⟩ ∧
    ∀ pr ∈ (RunOutput.mk
        (some (bump (bump (bump (fun _ => 0) "Images") "Documents") "Others", 3))
        (some (Dir.mk []
          [("sub", Dir.mk [] [("Documents", Dir.mk ["b.txt"] []), ("Others", Dir.mk ["x"] [])]),
           ("Images", Dir.mk ["trap.jpg", "a.jpg"] [])]))
        [movedMsg "Images" "a.jpg", movedMsg "Documents" "b.txt", movedMsg "Others" "x"]
        [.moved "Images" "a.jpg", .moved "Documents" "b.txt", .moved "Others" "x"]
        [([], "a.jpg"), (["sub"], "b.txt"), (["sub"], "x")]).processed,
      ∀ comp ∈ pr.1,
        comp ∉ ([("Images", [".jpg"]), ("Documents", [".txt"])] : CategoryMap).map Prod.fst ∧
        comp ≠ "Others" :=
  ⟨rfl,
    recursive_never_enters_category_dirs "r"
      (Dir.mk ["a.jpg"] [("sub", Dir.mk ["b.txt", "x"] []), ("Images", Dir.mk ["trap.jpg"] [])])
      [("Images", [".jpg"]), ("Documents", [".txt"])] noFailOracle
      (RunOutput.mk
        (some (bump (bump (bump (fun _ => 0) "Images") "Documents") "Others", 3))
        (some (Dir.mk []
          [("sub", Dir.mk [] [("Documents", Dir.mk ["b.txt"] []), ("Others", Dir.mk ["x"] [])]),
           ("Images", Dir.mk ["trap.jpg", "a.jpg"] [])]))
        [movedMsg "Images" "a.jpg", movedMsg "Documents" "b.txt", movedMsg "Others" "x"]
        [.moved "Images" "a.jpg", .moved "Documents" "b.txt", .moved "Others" "x"]
        [([], "a.jpg"), (["sub"], "b.txt"), (["sub"], "x")])
      rfl⟩

/-! ## C8: structural lemmas about the filesystem operations -/

theorem lookupSub_append (l1 l2 : List (String × Dir)) (n : String) :
    lookupSub (l1 ++ l2) n =
      match lookupSub l1 n with
      | some c => some c
      | none => lookupSub l2 n := by
  induction l1 with
  | nil => rfl
  | cons p rest ih =>
    obtain ⟨n1, c1⟩ := p
    by_cases h : n1 = n
    · simp [lookupSub, h]
    · simp only [List.cons_append, lookupSub, if_neg h]
      exact ih

theorem lookupSub_mem {l : List (String × Dir)} {n : String} {c : Dir}
    (h : lookupSub l n = some c) : (n, c) ∈ l := by
  induction l with
  | nil => cases h
  | cons p rest ih =>
    obtain ⟨n1, c1⟩ := p
    rw [lookupSub] at h
    by_cases he : n1 = n
    · rw [if_pos he] at h
      injection h with h
      rw [← he, ← h]
      exact List.mem_cons_self _ _
    · rw [if_neg he] at h
      exact List.mem_cons_of_mem _ (ih h)

theorem updateSub_lookup_self {l : List (String × Dir)} {n : String} {c0 : Dir}
    (h : lookupSub l n = some c0) (c2 : Dir) :
    lookupSub (updateSub l n c2) n = some c2 := by
  induction l with
  | nil => cases h
  | cons p rest ih =>
    obtain ⟨n1, c1⟩ := p
    rw [lookupSub] at h
    by_cases he : n1 = n
    · rw [updateSub, if_pos he, lookupSub, if_pos he]
    · rw [updateSub, if_neg he, lookupSub, if_neg he]
      rw [if_neg he] at h
      exact ih h

theorem updateSub_lookup_ne (l : List (String × Dir)) (n n2 : String) (c2 : Dir)
    (h : n2 ≠ n) : lookupSub (updateSub l n c2) n2 = lookupSub l n2 := by
  induction l with
  | nil => rfl
  | cons p rest ih =>
    obtain ⟨n1, c1⟩ := p
    by_cases he : n1 = n
    · rw [updateSub, if_pos he, lookupSub, lookupSub]
      have : ¬ n1 = n2 := fun h2 => h (h2 ▸ he ▸ rfl)
      rw [if_neg this, if_neg this]
    · rw [updateSub, if_neg he, lookupSub, lookupSub]
      by_cases h2 : n1 = n2
      · rw [if_pos h2, if_pos h2]
      · rw [if_neg h2, if_neg h2]
        exact ih

theorem updateSub_map_fst (l : List (String × Dir)) (n : String) (c2 : Dir) :
    (updateSub l n c2).map Prod.fst = l.map Prod.fst := by
  induction l with
  | nil => rfl
  | cons p rest ih =>
    obtain ⟨n1, c1⟩ := p
    by_cases he : n1 = n
    · rw [updateSub, if_pos he]
      simp only [List.map_cons]
    · rw [updateSub, if_neg he]
      simp only [List.map_cons, ih]

theorem eraseFile_subset {l : List String} {f g : String}
    (h : g ∈ eraseFile l f) : g ∈ l := by
  induction l with
  | nil => cases h
  | cons x xs ih =>
    rw [eraseFile] at h
    by_cases he : x = f
    · rw [if_pos he] at h
      exact List.mem_cons_of_mem _ h
    · rw [if_neg he] at h
      rcases List.mem_cons.1 h with h | h
      · rw [h]; exact List.mem_cons_self _ _
      · exact List.mem_cons_of_mem _ (ih h)

theorem makedirs_lookup_isSome {d d1 : Dir} {n : String}
    (h : makedirs d n = .ok d1) : ∃ c, lookupSub d1.subdirs n = some c := by
  unfold makedirs at h
  split at h
  · next c heq =>
    injection h with h
    exact ⟨c, by rw [← h]; exact heq⟩
  · next heq =>
    split at h
    · cases h
    · injection h with h
      refine ⟨Dir.mk [] [], ?_⟩
      rw [← h]
      show lookupSub (d.subdirs ++ [(n, Dir.mk [] [])]) n = some (Dir.mk [] [])
      rw [lookupSub_append, heq, lookupSub, if_pos rfl]

theorem makedirs_lookup_pres {d d1 : Dir} {n n2 : String} {c : Dir}
    (h : makedirs d n = .ok d1) (h2 : lookupSub d.subdirs n2 = some c) :
    lookupSub d1.subdirs n2 = some c := by
  unfold makedirs at h
  split at h
  · injection h with h; rw [← h]; exact h2
  · split at h
    · cases h
    · injection h with h
      rw [← h]
      show lookupSub (d.subdirs ++ [(n, Dir.mk [] [])]) n2 = some c
      rw [lookupSub_append, h2]

theorem makedirs_lookup_ne {d d1 : Dir} {n n2 : String}
    (h : makedirs d n = .ok d1) (hne : n2 ≠ n) :
    lookupSub d1.subdirs n2 = lookupSub d.subdirs n2 := by
  unfold makedirs at h
  split at h
  · injection h with h; rw [← h]
  · split at h
    · cases h
    · injection h with h
      rw [← h]
      show lookupSub (d.subdirs ++ [(n, Dir.mk [] [])]) n2 = lookupSub d.subdirs n2
      rw [lookupSub_append]
      cases hl : lookupSub d.subdirs n2 with
      | some c => rfl
      | none =>
        dsimp only
        rw [lookupSub, if_neg (fun he => hne he.symm)]
        rfl

theorem destExists_of_lookup {d : Dir} {c : String} {ch : Dir} {f : String}
    (hl : lookupSub d.subdirs c = some ch) (he : ch.hasEntry f = true) :
    destExists d c f = true := by
  unfold destExists
  rw [hl]
  exact he

theorem destExists_mono_makedirs {d d1 : Dir} {n c f : String}
    (h : makedirs d n = .ok d1) (hd : destExists d c f = true) :
    destExists d1 c f = true := by
  obtain ⟨ch, hl, he⟩ := destExists_lookup hd
  exact destExists_of_lookup (makedirs_lookup_pres h hl) he

theorem hasEntry_addFile {c : Dir} {f : String} (f2 : String) (h : c.hasEntry f = true) :
    (Dir.mk (c.files ++ [f2]) c.subdirs).hasEntry f = true := by
  obtain ⟨fs, subs⟩ := c
  unfold Dir.hasEntry at h ⊢
  simp only [Dir.files, Dir.subdirs] at h ⊢
  cases hm : memb fs f with
  | true =>
    have : f ∈ fs ++ [f2] := List.mem_append_left _ ((memb_iff _ _).1 hm)
    rw [(memb_iff _ _).2 this, Bool.true_or]
  | false =>
    rw [hm, Bool.false_or] at h
    rw [h, Bool.or_true]

theorem hasEntry_addFile_self (c : Dir) (f : String) :
    (Dir.mk (c.files ++ [f]) c.subdirs).hasEntry f = true := by
  obtain ⟨fs, subs⟩ := c
  unfold Dir.hasEntry
  simp only [Dir.files, Dir.subdirs]
  have : f ∈ fs ++ [f] := List.mem_append_right _ (List.mem_singleton.2 rfl)
  rw [(memb_iff _ _).2 this, Bool.true_or]

theorem destExists_mono_move {d : Dir} {c f c2 f2 : String}
    (h : destExists d c f = true) : destExists (moveFile d c2 f2) c f = true := by
  obtain ⟨fs, subs⟩ := d
  obtain ⟨ch, hl, he⟩ := destExists_lookup h
  simp only [Dir.subdirs] at hl
  unfold moveFile
  simp only [Dir.subdirs]
  cases hl2 : lookupSub subs c2 with
  | none =>
    unfold destExists
    simp only [Dir.subdirs]
    rw [hl]
    exact he
  | some c0 =>
    by_cases hcc : c = c2
    · subst hcc
      rw [hl] at hl2
      injection hl2 with hl2
      subst hl2
      unfold destExists
      simp only [Dir.subdirs]
      rw [updateSub_lookup_self hl]
      exact hasEntry_addFile f2 he
    · unfold destExists
      simp only [Dir.subdirs]
      rw [updateSub_lookup_ne _ _ _ _ hcc, hl]
      exact he

theorem moveFile_dest {d : Dir} {c f : String} {c0 : Dir}
    (hl : lookupSub d.subdirs c = some c0) :
    destExists (moveFile d c f) c f = true := by
  obtain ⟨fs, subs⟩ := d
  simp only [Dir.subdirs] at hl
  unfold moveFile
  simp only [Dir.subdirs]
  rw [hl]
  unfold destExists
  simp only [Dir.subdirs]
  rw [updateSub_lookup_self hl]
  exact hasEntry_addFile_self c0 f

theorem moveFile_files_subset {d : Dir} {c2 f2 g : String}
    (h : g ∈ (moveFile d c2 f2).files) : g ∈ d.files := by
  unfold moveFile at h
  cases hl : lookupSub d.subdirs c2 with
  | none => rw [hl] at h; exact h
  | some c0 =>
    rw [hl] at h
    simp only [Dir.files] at h
    exact eraseFile_subset h

theorem moveFile_lookup_ne {d : Dir} {c c2 f2 : String} (hcc : c ≠ c2) :
    lookupSub (moveFile d c2 f2).subdirs c = lookupSub d.subdirs c := by
  unfold moveFile
  cases hl : lookupSub d.subdirs c2 with
  | none => rfl
  | some c0 =>
    simp only [Dir.subdirs]
    exact updateSub_lookup_ne _ _ _ _ hcc

theorem moveFile_subdir_names (d : Dir) (c2 f2 : String) :
    (moveFile d c2 f2).subdirs.map Prod.fst = d.subdirs.map Prod.fst := by
  unfold moveFile
  cases hl : lookupSub d.subdirs c2 with
  | none => rfl
  | some c0 =>
    simp only [Dir.subdirs]
    exact updateSub_map_fst _ _ _

theorem makedirs_names {d d1 : Dir} {n : String} (h : makedirs d n = .ok d1) :
    ∀ n2 ∈ d1.subdirs.map Prod.fst, n2 ∈ d.subdirs.map Prod.fst ∨ n2 = n := by
  unfold makedirs at h
  split at h
  · injection h with h; rw [← h]; exact fun n2 hn => Or.inl hn
  · split at h
    · cases h
    · injection h with h
      rw [← h]
      intro n2 hn
      simp only [Dir.subdirs, List.map_append, List.map_cons, List.map_nil] at hn
      rcases List.mem_append.1 hn with hn | hn
      · exact Or.inl hn
      · exact Or.inr (List.mem_singleton.1 hn)

theorem ne_classify_of_ok {m : CategoryMap} {n f : String}
    (hok : okDirName m n = true) : n ≠ classifyFile m f := by
  intro he
  rw [he, classifyFile_not_ok] at hok
  cases hok

/-- State evolution of one `process_file` call: top-level files only
disappear, destination entries only accumulate, new subdirectory names are
category-named, and subdirectories that the recursive walk may descend into
are untouched. -/
theorem process_file_state {d : Dir} {f : String} {m : CategoryMap} {s : Summary}
    {o : MoveOracle} {d1 : Dir} {s1 : Summary} {out : Outcome} {msg : String}
    (h : process_file d f m s o = .ok (d1, s1, out, msg)) :
    (∀ g, g ∈ d1.files → g ∈ d.files) ∧
    (∀ c f2, destExists d c f2 = true → destExists d1 c f2 = true) ∧
    (∀ n, n ∈ d1.subdirs.map Prod.fst → n ∈ d.subdirs.map Prod.fst ∨ okDirName m n = false) ∧
    (∀ n, okDirName m n = true → lookupSub d1.subdirs n = lookupSub d.subdirs n) := by
  obtain ⟨dm, hmk, hrest⟩ := process_file_cases h
  have hmk_files := makedirs_files hmk
  have hmk_names := makedirs_names hmk
  have hmk_ok : ∀ n, okDirName m n = true → lookupSub dm.subdirs n = lookupSub d.subdirs n :=
    fun n hok => makedirs_lookup_ne hmk (ne_classify_of_ok hok)
  have hmk_mono : ∀ c f2, destExists d c f2 = true → destExists dm c f2 = true :=
    fun c f2 hd => destExists_mono_makedirs hmk hd
  have base :
      (∀ g, g ∈ dm.files → g ∈ d.files) ∧
      (∀ c f2, destExists d c f2 = true → destExists dm c f2 = true) ∧
      (∀ n, n ∈ dm.subdirs.map Prod.fst → n ∈ d.subdirs.map Prod.fst ∨ okDirName m n = false) ∧
      (∀ n, okDirName m n = true → lookupSub dm.subdirs n = lookupSub d.subdirs n) := by
    refine ⟨fun g hg => by rw [hmk_files] at hg; exact hg, hmk_mono, ?_, hmk_ok⟩
    intro n hn
    rcases hmk_names n hn with hn | hn
    · exact Or.inl hn
    · exact Or.inr (hn ▸ classifyFile_not_ok m f)
  rcases hrest with ⟨_, hd, _⟩ | ⟨_, ⟨e, _, hd, _⟩ | ⟨_, hd, _⟩⟩
  · subst hd; exact base
  · subst hd; exact base
  · subst hd
    obtain ⟨bf, bm, bn, bo⟩ := base
    refine ⟨fun g hg => bf g (moveFile_files_subset hg),
      fun c f2 hd2 => destExists_mono_move (bm c f2 hd2), ?_, ?_⟩
    · intro n hn
      rw [moveFile_subdir_names] at hn
      exact bn n hn
    · intro n hok
      rw [moveFile_lookup_ne (ne_classify_of_ok hok)]
      exact bo n hok

/-- With no environment-injected move failures, `process_file` never records
an Error outcome, and afterwards the destination of the processed file
holds an entry with its name. -/
theorem process_file_dest {d : Dir} {f : String} {m : CategoryMap} {s : Summary}
    {d1 : Dir} {s1 : Summary} {out : Outcome} {msg : String}
    (h : process_file d f m s noFailOracle = .ok (d1, s1, out, msg)) :
    destExists d1 (classifyFile m f) f = true ∧
    (isSkipped out = true ∨ isMoved out = true) := by
  obtain ⟨dm, hmk, hrest⟩ := process_file_cases h
  rcases hrest with ⟨hex, hd, _, hout, _⟩ | ⟨hex, ⟨e, ho, _⟩ | ⟨_, hd, _, hout, _⟩⟩
  · subst hd hout
    exact ⟨hex, Or.inl rfl⟩
  · exact absurd ho (by simp [noFailOracle])
  · subst hd hout
    obtain ⟨c0, hl⟩ := makedirs_lookup_isSome hmk
    exact ⟨moveFile_dest hl, Or.inr rfl⟩

/-- After the recursive per-directory loop (no move failures): files only
disappear, destination entries only accumulate, new subdirectory names are
category-named, descendable subdirectories are untouched, and every
processed file ends with an entry at its classified destination. -/
theorem walkFiles_post (m : CategoryMap) (path : List String) :
    ∀ (fs : List String) (d : Dir) (s : Summary) (t : Nat)
      {d2 : Dir} {s2 : Summary} {t2 : Nat} {msgs : List String} {outs : List Outcome}
      {procs : List (List String × String)},
      walkFiles m noFailOracle path fs d s t = .ok (d2, s2, t2, msgs, outs, procs) →
      (∀ g, g ∈ d2.files → g ∈ d.files) ∧
      (∀ c f2, destExists d c f2 = true → destExists d2 c f2 = true) ∧
      (∀ n, n ∈ d2.subdirs.map Prod.fst → n ∈ d.subdirs.map Prod.fst ∨ okDirName m n = false) ∧
      (∀ n, okDirName m n = true → lookupSub d2.subdirs n = lookupSub d.subdirs n) ∧
      (∀ f ∈ fs, destExists d2 (classifyFile m f) f = true) := by
  intro fs
  induction fs with
  | nil =>
    intro d s t d2 s2 t2 msgs outs procs h
    rw [walkFiles] at h
    simp only [Except.ok.injEq, Prod.mk.injEq] at h
    obtain ⟨h1, _⟩ := h
    subst h1
    exact ⟨fun g hg => hg, fun c f2 hd => hd, fun n hn => Or.inl hn, fun n _ => rfl,
      fun f hf => absurd hf (List.not_mem_nil f)⟩
  | cons f rest ih =>
    intro d s t d2 s2 t2 msgs outs procs h
    rw [walkFiles] at h
    obtain ⟨p, hp, h⟩ := bind_ok_inv h
    obtain ⟨da, sa, outa, msga⟩ := p
    dsimp only at h
    obtain ⟨q, hq, h⟩ := bind_ok_inv h
    obtain ⟨db, sb, tb, msgsb, outsb, procsb⟩ := q
    dsimp only at h
    simp only [Except.ok.injEq, Prod.mk.injEq] at h
    obtain ⟨h1, _⟩ := h
    subst h1
    obtain ⟨pf, pm, pn, po⟩ := process_file_state hp
    obtain ⟨pd, _⟩ := process_file_dest hp
    obtain ⟨rf, rm, rn, ro, rd⟩ := ih da sa (t + 1) hq
    refine ⟨fun g hg => pf g (rf g hg), fun c f2 hd => rm c f2 (pm c f2 hd), ?_, ?_, ?_⟩
    · intro n hn
      rcases rn n hn with hn | hn
      · exact pn n hn
      · exact Or.inr hn
    · intro n hok
      rw [ro n hok, po n hok]
    · intro g hg
      rcases List.mem_cons.1 hg with hg | hg
      · subst hg
        exact rm _ _ pd
      · exact rd g hg

/-- After the non-recursive loop (no move failures): files only disappear,
destination entries only accumulate, and every file of the snapshot still
present afterwards has an entry at its classified destination. -/
theorem processListed_post (m : CategoryMap) :
    ∀ (fs : List String) (d : Dir) (s : Summary) (t : Nat)
      {d2 : Dir} {s2 : Summary} {t2 : Nat} {msgs : List String} {outs : List Outcome},
      processListed m noFailOracle fs d s t = .ok (d2, s2, t2, msgs, outs) →
      (∀ g, g ∈ d2.files → g ∈ d.files) ∧
      (∀ c f2, destExists d c f2 = true → destExists d2 c f2 = true) ∧
      (∀ f ∈ fs, f ∈ d2.files → destExists d2 (classifyFile m f) f = true) := by
  intro fs
  induction fs with
  | nil =>
    intro d s t d2 s2 t2 msgs outs h
    rw [processListed] at h
    simp only [Except.ok.injEq, Prod.mk.injEq] at h
    obtain ⟨h1, _⟩ := h
    subst h1
    exact ⟨fun g hg => hg, fun c f2 hd => hd, fun f hf => absurd hf (List.not_mem_nil f)⟩
  | cons f rest ih =>
    intro d s t d2 s2 t2 msgs outs h
    rw [processListed] at h
    by_cases hm : memb d.files f = true
    · rw [if_pos hm] at h
      obtain ⟨p, hp, h⟩ := bind_ok_inv h
      obtain ⟨da, sa, outa, msga⟩ := p
      dsimp only at h
      obtain ⟨q, hq, h⟩ := bind_ok_inv h
      obtain ⟨db, sb, tb, msgsb, outsb⟩ := q
      dsimp only at h
      simp only [Except.ok.injEq, Prod.mk.injEq] at h
      obtain ⟨h1, _⟩ := h
      subst h1
      obtain ⟨pf, pm, _, _⟩ := process_file_state hp
      obtain ⟨pd, _⟩ := process_file_dest hp
      obtain ⟨rf, rm, rd⟩ := ih da sa (t + 1) hq
      refine ⟨fun g hg => pf g (rf g hg), fun c f2 hd => rm c f2 (pm c f2 hd), ?_⟩
      intro g hg hg2
      rcases List.mem_cons.1 hg with hg | hg
      · subst hg
        exact rm _ _ pd
      · exact rd g hg hg2
    · rw [if_neg hm] at h
      obtain ⟨rf, rm, rd⟩ := ih d s t h
      refine ⟨rf, rm, ?_⟩
      intro g hg hg2
      rcases List.mem_cons.1 hg with hg | hg
      · subst hg
        exact absurd ((memb_iff _ _).2 (rf g hg2)) hm
      · exact rd g hg hg2

theorem mergeWalked_lookup_none {lb : List (String × Dir)} {c : String}
    (h : lookupSub lb c = none) (l : List (String × Dir)) :
    lookupSub (mergeWalked lb l) c = lookupSub l c := by
  induction l with
  | nil => rfl
  | cons p rest ih =>
    obtain ⟨n, ch⟩ := p
    rw [mergeWalked]
    by_cases hn : n = c
    · subst hn
      rw [h]
      dsimp only
      rw [lookupSub, lookupSub, if_pos rfl, if_pos rfl]
    · cases hlb : lookupSub lb n with
      | some cw =>
        dsimp only
        rw [lookupSub, lookupSub, if_neg hn, if_neg hn]
        exact ih
      | none =>
        dsimp only
        rw [lookupSub, lookupSub, if_neg hn, if_neg hn]
        exact ih

theorem mergeWalked_entry {lb : List (String × Dir)} {n : String} {c2 : Dir} :
    ∀ {l : List (String × Dir)}, (n, c2) ∈ mergeWalked lb l →
      lookupSub lb n = some c2 ∨ (lookupSub lb n = none ∧ (n, c2) ∈ l) := by
  intro l
  induction l with
  | nil => intro h; cases h
  | cons p rest ih =>
    obtain ⟨n1, c1⟩ := p
    intro h
    rw [mergeWalked] at h
    rcases List.mem_cons.1 h with h | h
    · cases hlb : lookupSub lb n1 with
      | some cw =>
        rw [hlb] at h
        dsimp only at h
        obtain ⟨he1, he2⟩ := Prod.mk.injEq .. ▸ h
        subst he1
        rw [hlb, he2]
        exact Or.inl rfl
      | none =>
        rw [hlb] at h
        dsimp only at h
        obtain ⟨he1, he2⟩ := Prod.mk.injEq .. ▸ h
        subst he1 he2
        exact Or.inr ⟨hlb, List.mem_cons_self _ _⟩
    · rcases ih h with h2 | ⟨h2, h3⟩
      · exact Or.inl h2
      · exact Or.inr ⟨h2, List.mem_cons_of_mem _ h3⟩

theorem lookupSub_none_of_all_ok {m : CategoryMap} {lb : List (String × Dir)} {c : String}
    (hall : ∀ p ∈ lb, okDirName m p.1 = true) (hc : okDirName m c = false) :
    lookupSub lb c = none := by
  induction lb with
  | nil => rfl
  | cons p rest ih =>
    obtain ⟨n, ch⟩ := p
    rw [lookupSub]
    by_cases hn : n = c
    · exfalso
      have := hall (n, ch) (List.mem_cons_self _ _)
      rw [hn, hc] at this
      cases this
    · rw [if_neg hn]
      exact ih (fun p hp => hall p (List.mem_cons_of_mem _ hp))

theorem destExists_eq_of_lookup {d1 d2 : Dir} {c f : String}
    (h : lookupSub d1.subdirs c = lookupSub d2.subdirs c) :
    destExists d1 c f = destExists d2 c f := by
  unfold destExists
  rw [h]

theorem ok_bind {ε α β : Type} (x : α) (f : α → Except ε β) :
    (Except.ok x >>= f) = f x := rfl

/-- A recursive run with no move failures leaves every visited directory
`Ready`: each remaining file already collides with its destination, and the
same holds recursively below every descendable subdirectory. -/
theorem walk_ready (m : CategoryMap) :
    ∀ (path : List String) (d : Dir) (s : Summary) (t : Nat)
      (d2 : Dir) (s2 : Summary) (t2 : Nat) (msgs : List String) (outs : List Outcome)
      (procs : List (List String × String)),
      walkDir m noFailOracle path d s t = .ok (d2, s2, t2, msgs, outs, procs) →
      Ready m d2 := by
  have main :=
    walkDir.mutual_induct m noFailOracle
      (motive_1 := fun path d s t =>
        ∀ (d2 : Dir) (s2 : Summary) (t2 : Nat) (msgs : List String) (outs : List Outcome)
          (procs : List (List String × String)),
          walkDir m noFailOracle path d s t = .ok (d2, s2, t2, msgs, outs, procs) →
          Ready m d2)
      (motive_2 := fun path l s t =>
        ∀ (l2 : List (String × Dir)) (s2 : Summary) (t2 : Nat) (msgs : List String)
          (outs : List Outcome) (procs : List (List String × String)),
          walkSubdirs m noFailOracle path l s t = .ok (l2, s2, t2, msgs, outs, procs) →
          (∀ p ∈ l2, okDirName m p.1 = true ∧ Ready m p.2) ∧
          (∀ n, okDirName m n = true → n ∈ l.map Prod.fst →
            (lookupSub l2 n).isSome = true))
  refine fun path d s t d2 s2 t2 msgs outs procs h =>
    (main ?_ ?_ ?_ ?_).1 path d s t d2 s2 t2 msgs outs procs h
  · intro path fs subs s total ih d2 s2 t2 msgs outs procs h
    rw [walkDir] at h
    obtain ⟨p, hp, h⟩ := bind_ok_inv h
    obtain ⟨da, sa, ta, msgsa, outsa, procsa⟩ := p
    dsimp only at h
    obtain ⟨q, hq, h⟩ := bind_ok_inv h
    obtain ⟨lb, sb, tb, msgsb, outsb, procsb⟩ := q
    dsimp only at h
    simp only [Except.ok.injEq, Prod.mk.injEq] at h
    obtain ⟨h1, _⟩ := h
    subst h1
    obtain ⟨wf, wm, wn, wo, wd⟩ := walkFiles_post m path fs (Dir.mk fs subs) s total hp
    obtain ⟨m2a, m2b⟩ := ih sa ta lb sb tb msgsb outsb procsb hq
    refine Ready.intro _ _ ?_ ?_
    · intro f hf
      have hda : destExists da (classifyFile m f) f = true := wd f (wf f hf)
      have hnone : lookupSub lb (classifyFile m f) = none :=
        lookupSub_none_of_all_ok (fun p hp2 => (m2a p hp2).1) (classifyFile_not_ok m f)
      have hlk : lookupSub (Dir.mk da.files (mergeWalked lb da.subdirs)).subdirs
          (classifyFile m f) = lookupSub da.subdirs (classifyFile m f) := by
        simp only [Dir.subdirs]
        exact mergeWalked_lookup_none hnone _
      rw [destExists_eq_of_lookup hlk]
      exact hda
    · intro p hp2 hok
      obtain ⟨n, c2⟩ := p
      rcases mergeWalked_entry hp2 with h2 | ⟨h2, h3⟩
      · exact (m2a (n, c2) (lookupSub_mem h2)).2
      · exfalso
        have hnames : n ∈ da.subdirs.map Prod.fst := List.mem_map_of_mem Prod.fst h3
        rcases wn n hnames with hn | hn
        · have hsome := m2b n hok hn
          rw [h2] at hsome
          cases hsome
        · rw [hok] at hn
          cases hn
  · intro path s total l2 s2 t2 msgs outs procs h
    rw [walkSubdirs] at h
    simp only [Except.ok.injEq, Prod.mk.injEq] at h
    obtain ⟨h1, _⟩ := h
    subst h1
    refine ⟨fun p hp => absurd hp (List.not_mem_nil p), ?_⟩
    intro n _ hn
    simp at hn
  · intro path n c rest s total hok ihdir ihrest l2 s2 t2 msgs outs procs h
    rw [walkSubdirs, if_pos hok] at h
    obtain ⟨p, hp, h⟩ := bind_ok_inv h
    obtain ⟨ca, sa, ta, msgsa, outsa, procsa⟩ := p
    dsimp only at h
    obtain ⟨q, hq, h⟩ := bind_ok_inv h
    obtain ⟨lb, sb, tb, msgsb, outsb, procsb⟩ := q
    dsimp only at h
    simp only [Except.ok.injEq, Prod.mk.injEq] at h
    obtain ⟨h1, _⟩ := h
    subst h1
    obtain ⟨m2a, m2b⟩ := ihrest sa ta lb sb tb msgsb outsb procsb hq
    have hca : Ready m ca := ihdir ca sa ta msgsa outsa procsa hp
    constructor
    · intro p hp2
      rcases List.mem_cons.1 hp2 with hp2 | hp2
      · rw [hp2]
        exact ⟨hok, hca⟩
      · exact m2a p hp2
    · intro n2 hok2 hn2
      rw [lookupSub]
      by_cases he : n = n2
      · rw [if_pos he]
        rfl
      · rw [if_neg he]
        simp only [List.map_cons, List.mem_cons] at hn2
        rcases hn2 with hn2 | hn2
        · exact absurd hn2.symm he
        · exact m2b n2 hok2 hn2
  · intro path n c rest s total hok ihrest l2 s2 t2 msgs outs procs h
    rw [walkSubdirs, if_neg hok] at h
    obtain ⟨q, hq, h⟩ := bind_ok_inv h
    obtain ⟨lb, sb, tb, msgsb, outsb, procsb⟩ := q
    dsimp only at h
    simp only [Except.ok.injEq, Prod.mk.injEq] at h
    obtain ⟨h1, _⟩ := h
    subst h1
    obtain ⟨m2a, m2b⟩ := ihrest lb sb tb msgsb outsb procsb hq
    refine ⟨m2a, ?_⟩
    intro n2 hok2 hn2
    simp only [List.map_cons, List.mem_cons] at hn2
    rcases hn2 with hn2 | hn2
    · exact absurd (hn2 ▸ hok2) hok
    · exact m2b n2 hok2 hn2

/-- Over a directory whose files all collide with their destinations, the
per-directory loop only skips and changes nothing. -/
theorem walkFiles_allskip (m : CategoryMap) (path : List String) :
    ∀ (fs : List String) (d : Dir) (s : Summary) (t : Nat),
      (∀ f ∈ fs, destExists d (classifyFile m f) f = true) →
      ∃ t2 msgs outs procs,
        walkFiles m noFailOracle path fs d s t = .ok (d, s, t2, msgs, outs, procs) ∧
        ∀ o ∈ outs, isSkipped o = true := by
  intro fs
  induction fs with
  | nil =>
    intro d s t _
    exact ⟨t, [], [], [], rfl, fun o ho => absurd ho (List.not_mem_nil o)⟩
  | cons f rest ih =>
    intro d s t hready
    obtain ⟨t2, msgs, outs, procs, heq, hsk⟩ :=
      ih d s (t + 1) (fun g hg => hready g (List.mem_cons_of_mem _ hg))
    refine ⟨t2, skippedMsg (classifyFile m f) f :: msgs,
      .skipped (classifyFile m f) f :: outs, (path, f) :: procs, ?_, ?_⟩
    · rw [walkFiles,
        process_file_skip d f m s noFailOracle (hready f (List.mem_cons_self f rest)), ok_bind]
      dsimp only
      rw [heq, ok_bind]
    · intro o ho
      rcases List.mem_cons.1 ho with ho | ho
      · rw [ho]; rfl
      · exact hsk o ho

/-- Over a `Ready` tree, the recursive walk only skips. -/
theorem walk_allskip (m : CategoryMap) :
    ∀ (path : List String) (d : Dir) (s : Summary) (t : Nat), Ready m d →
      ∃ d2 t2 msgs outs procs,
        walkDir m noFailOracle path d s t = .ok (d2, s, t2, msgs, outs, procs) ∧
        ∀ o ∈ outs, isSkipped o = true := by
  have main :=
    walkDir.mutual_induct m noFailOracle
      (motive_1 := fun path d s t => Ready m d →
        ∃ d2 t2 msgs outs procs,
          walkDir m noFailOracle path d s t = .ok (d2, s, t2, msgs, outs, procs) ∧
          ∀ o ∈ outs, isSkipped o = true)
      (motive_2 := fun path l s t => (∀ p ∈ l, okDirName m p.1 = true → Ready m p.2) →
        ∃ l2 t2 msgs outs procs,
          walkSubdirs m noFailOracle path l s t = .ok (l2, s, t2, msgs, outs, procs) ∧
          ∀ o ∈ outs, isSkipped o = true)
  refine fun path d s t h => (main ?_ ?_ ?_ ?_).1 path d s t h
  · intro path fs subs s total ih hready
    have hfiles : ∀ f ∈ fs, destExists (Dir.mk fs subs) (classifyFile m f) f = true := by
      cases hready with
      | intro fs subs hf hs => exact hf
    have hsubs : ∀ p ∈ subs, okDirName m p.1 = true → Ready m p.2 := by
      cases hready with
      | intro fs subs hf hs => exact hs
    obtain ⟨t2, msgs1, outs1, procs1, heq1, hsk1⟩ :=
      walkFiles_allskip m path fs (Dir.mk fs subs) s total hfiles
    obtain ⟨l2, t3, msgs2, outs2, procs2, heq2, hsk2⟩ := ih s t2 hsubs
    refine ⟨Dir.mk (Dir.mk fs subs).files (mergeWalked l2 (Dir.mk fs subs).subdirs), t3,
      msgs1 ++ msgs2, outs1 ++ outs2, procs1 ++ procs2, ?_, ?_⟩
    · rw [walkDir, heq1, ok_bind]
      dsimp only
      rw [heq2, ok_bind]
    · intro o ho
      rcases List.mem_append.1 ho with ho | ho
      · exact hsk1 o ho
      · exact hsk2 o ho
  · intro path s total _
    exact ⟨[], total, [], [], [], rfl, fun o ho => absurd ho (List.not_mem_nil o)⟩
  · intro path n c rest s total hok ihdir ihrest hready
    obtain ⟨c2, t2, msgs1, outs1, procs1, heq1, hsk1⟩ :=
      ihdir (hready (n, c) (List.mem_cons_self _ _) hok)
    obtain ⟨l2, t3, msgs2, outs2, procs2, heq2, hsk2⟩ :=
      ihrest s t2 (fun p hp => hready p (List.mem_cons_of_mem _ hp))
    refine ⟨(n, c2) :: l2, t3, msgs1 ++ msgs2, outs1 ++ outs2, procs1 ++ procs2, ?_, ?_⟩
    · rw [walkSubdirs, if_pos hok, heq1, ok_bind]
      dsimp only
      rw [heq2, ok_bind]
    · intro o ho
      rcases List.mem_append.1 ho with ho | ho
      · exact hsk1 o ho
      · exact hsk2 o ho
  · intro path n c rest s total hok ihrest hready
    obtain ⟨l2, t2, msgs2, outs2, procs2, heq2, hsk2⟩ :=
      ihrest (fun p hp => hready p (List.mem_cons_of_mem _ hp))
    refine ⟨l2, t2, msgs2, outs2, procs2, ?_, hsk2⟩
    rw [walkSubdirs, if_neg hok, heq2, ok_bind]

/-- Over a listing whose files all collide with their destinations, the
non-recursive loop only skips and changes nothing. -/
theorem processListed_allskip (m : CategoryMap) :
    ∀ (fs : List String) (d : Dir) (s : Summary) (t : Nat),
      (∀ f ∈ fs, f ∈ d.files) →
      (∀ f ∈ fs, destExists d (classifyFile m f) f = true) →
      ∃ t2 msgs outs,
        processListed m noFailOracle fs d s t = .ok (d, s, t2, msgs, outs) ∧
        ∀ o ∈ outs, isSkipped o = true := by
  intro fs
  induction fs with
  | nil =>
    intro d s t _ _
    exact ⟨t, [], [], rfl, fun o ho => absurd ho (List.not_mem_nil o)⟩
  | cons f rest ih =>
    intro d s t hmem hready
    obtain ⟨t2, msgs, outs, heq, hsk⟩ :=
      ih d s (t + 1) (fun g hg => hmem g (List.mem_cons_of_mem _ hg))
        (fun g hg => hready g (List.mem_cons_of_mem _ hg))
    refine ⟨t2, skippedMsg (classifyFile m f) f :: msgs,
      .skipped (classifyFile m f) f :: outs, ?_, ?_⟩
    · rw [processListed, if_pos ((memb_iff _ _).2 (hmem f (List.mem_cons_self f rest))),
        process_file_skip d f m s noFailOracle (hready f (List.mem_cons_self f rest)), ok_bind]
      dsimp only
      rw [heq, ok_bind]
    · intro o ho
      rcases List.mem_cons.1 ho with ho | ho
      · rw [ho]; rfl
      · exact hsk o ho

/-- C8: running `organize_folder` twice in succession with the same root,
CategoryMap and recursion flag (and no environment-injected move failures)
moves zero additional files on the second run: files moved by the first run
sit inside category directories that the second run's listing/pruning never
enters, and every file the second run does process collides with the entry
its first-run classification left (or found) at the destination and is
reported as skipped. -/
theorem second_run_moves_nothing (folder_path : String) (d : Dir) (m : CategoryMap)
    (recursive : Bool) (out1 out2 : RunOutput)
    (h1 : organize_folder folder_path (some d) m recursive noFailOracle = .ok out1)
    (h2 : organize_folder folder_path out1.fsRoot m recursive noFailOracle = .ok out2) :
    out2.outcomes.countP isMoved = 0 ∧ ∀ o ∈ out2.outcomes, isSkipped o = true := by
  suffices hsk : ∀ o ∈ out2.outcomes, isSkipped o = true by
    refine ⟨?_, hsk⟩
    rw [List.countP_eq_zero]
    intro o ho
    have hs := hsk o ho
    cases o with
    | moved c f => simp [isSkipped] at hs
    | skipped c f => simp [isMoved]
    | errored c f e => simp [isMoved]
  unfold organize_folder at h1
  dsimp only at h1
  by_cases hp : folder_path = ""
  · rw [if_pos hp] at h1
    injection h1 with h1
    rw [← h1] at h2
    unfold organize_folder at h2
    dsimp only at h2
    rw [if_pos hp] at h2
    injection h2 with h2
    rw [← h2]
    intro o ho
    cases ho
  · rw [if_neg hp] at h1
    cases recursive with
    | true =>
      simp only [if_true] at h1
      obtain ⟨p, hw, h1⟩ := bind_ok_inv h1
      obtain ⟨d1, s1, t1, msgs, outs, procs⟩ := p
      dsimp only at h1
      injection h1 with h1
      have hready : Ready m d1 :=
        walk_ready m [] d (fun _ => 0) 0 d1 s1 t1 msgs outs procs hw
      rw [← h1] at h2
      unfold organize_folder at h2
      dsimp only at h2
      rw [if_neg hp] at h2
      simp only [if_true] at h2
      obtain ⟨d2', t2', msgs2, outs2, procs2, heq2, hsk2⟩ :=
        walk_allskip m [] d1 (fun _ => 0) 0 hready
      rw [heq2, ok_bind] at h2
      dsimp only at h2
      injection h2 with h2
      rw [← h2]
      exact hsk2
    | false =>
      simp only [Bool.false_eq_true, if_false] at h1
      obtain ⟨p, hw, h1⟩ := bind_ok_inv h1
      obtain ⟨d1, s1, t1, msgs, outs⟩ := p
      dsimp only at h1
      injection h1 with h1
      obtain ⟨sub1, mono1, post1⟩ := processListed_post m d.files d (fun _ => 0) 0 hw
      have hfiles : ∀ f ∈ d1.files, destExists d1 (classifyFile m f) f = true :=
        fun f hf => post1 f (sub1 f hf) hf
      rw [← h1] at h2
      unfold organize_folder at h2
      dsimp only at h2
      rw [if_neg hp] at h2
      simp only [Bool.false_eq_true, if_false] at h2
      obtain ⟨t2', msgs2, outs2, heq2, hsk2⟩ :=
        processListed_allskip m d1.files d1 (fun _ => 0) 0 (fun f hf => hf) hfiles
      rw [heq2, ok_bind] at h2
      dsimp only at h2
      injection h2 with h2
      rw [← h2]
      exact hsk2

theorem second_run_moves_nothing_witness :
    (organize_folder "r" (some (Dir.mk ["a.jpg"] [])) [("Images", [".jpg"])] false noFailOracle =
      .ok ⟨some (bump (fun _ => 0) "Images", 1),
        some (Dir.mk [] [("Images", Dir.mk ["a.jpg"] [])]),
        [movedMsg "Images" "a.jpg"], [.moved "Images" "a.jpg"], [([], "a.jpg")]⟩ ∧
     organize_folder "r"
        (RunOutput.mk (some (bump (fun _ => 0) "Images", 1))
          (some (Dir.mk [] [("Images", Dir.mk ["a.jpg"] [])]))
          [movedMsg "Images" "a.jpg"] [.moved "Images" "a.jpg"] [([], "a.jpg")]).fsRoot
        [("Images", [".jpg"])] false noFailOracle =
      .ok ⟨some ((fun _ => 0), 0), some (Dir.mk [] [("Images", Dir.mk ["a.jpg"] [])]),
        [], [], []⟩) ∧
    (([] : List Outcome).countP isMoved = 0 ∧
      ∀ o ∈ ([] : List Outcome), isSkipped o = true) :=
  ⟨⟨rfl, rfl⟩,
    second_run_moves_nothing "r" (Dir.mk ["a.jpg"] []) [("Images", [".jpg"])] false
      (RunOutput.mk (some (bump (fun _ => 0) "Images", 1))
        (some (Dir.mk [] [("Images", Dir.mk ["a.jpg"] [])]))
        [movedMsg "Images" "a.jpg"] [.moved "Images" "a.jpg"] [([], "a.jpg")])
      (RunOutput.mk (some ((fun _ => 0), 0))
        (some (Dir.mk [] [("Images", Dir.mk ["a.jpg"] [])])) [] [] [])
      rfl rfl⟩

end SmartOrganizer
